import Mathlib

/-!
Verification of the fire-evacuation planner core (grid, hazard field,
hybrid planner with deterministic A* fallback, route annotation, and
signboard guidance) against its natural-language specification.

Shallow embedding conventions:
* Python floats are idealized as exact numbers: fire intensities and
  thresholds (all rational in the source) are modelled as `ℚ`; geometric
  costs built from `math.hypot` (square roots) are modelled as `ℝ`.
* NumPy arrays indexed by `(row, col)` are modelled as total functions
  `ℤ → ℤ → _`; every array-mutating operation only rewrites in-bounds
  entries, mirroring the fact that the real array has no out-of-bounds
  cells.  Out-of-range indexing is a caller precondition in the spec.
* `float('inf')` results are modelled with `Option` (`none` = infinite /
  no-route), matching the source's `math.isinf` guards.
* The unseeded stochastic ant construction is modelled by a
  nondeterministic inductive relation covering every path the loop in
  `AntColony._construct_solution` can return for some random draws.
* Loops whose termination the source leaves implicit (the A* while-loop
  and parent-chain reconstruction) take an explicit fuel argument; the
  outer `none` means "fuel exhausted", `some r` means the loop finished
  with result `r`.
-/

namespace FireEvac

/-- An integer (row, column) coordinate, as used by the Python tuples. -/
abbrev Coord : Type := ℤ × ℤ

/-- Embeds `services/grid.py` `Grid`: a rectangular matrix of cell codes
(0 free, 1 wall, 2 fire product, 3 exit, 4 start) with height `h` and
width `w`; `mat` is the cell-code array. -/
structure Grid where
  h : ℕ
  w : ℕ
  mat : ℤ → ℤ → ℕ

/-- `0 <= r < h and 0 <= c < w`: the coordinate lies inside the array. -/
def Grid.inB (g : Grid) (r c : ℤ) : Prop :=
  0 ≤ r ∧ r < (g.h : ℤ) ∧ 0 ≤ c ∧ c < (g.w : ℤ)

instance (g : Grid) (r c : ℤ) : Decidable (g.inB r c) := by
  unfold Grid.inB; infer_instance

/-- The eight neighbor offsets of `Grid.neighbors`, in source order. -/
def nbrOffsets : List (ℤ × ℤ) :=
  [(-1, 0), (1, 0), (0, -1), (0, 1), (-1, -1), (-1, 1), (1, -1), (1, 1)]

/-- Embeds `Grid.neighbors`: the 8-connected in-bounds neighbors that are
not walls (`mat != 1`), in source offset order. -/
def Grid.neighbors (g : Grid) (r c : ℤ) : List Coord :=
  nbrOffsets.filterMap (fun d =>
    let rr := r + d.1
    let cc := c + d.2
    if g.inB rr cc ∧ g.mat rr cc ≠ 1 then some (rr, cc) else none)

/-- All in-bounds coordinates of the grid, row-major (the iteration order
of the nested loops in `FireModel._diffuse`). -/
def Grid.cells (g : Grid) : List Coord :=
  (List.range g.h).flatMap (fun r => (List.range g.w).map (fun c => ((r : ℤ), (c : ℤ))))

/-- Embeds `services/fire_model.py` `FireModel` state: the per-cell fire
intensity array and the current stage string. -/
structure FireModel where
  grid : Grid
  intensity : ℤ → ℤ → ℚ
  stage : String

/-- Embeds `FireModel.__init__`: zero intensity everywhere, `-1` on walls,
stage `"initial"`. -/
def mkFireModel (g : Grid) : FireModel :=
  { grid := g
    intensity := fun r c => if g.inB r c ∧ g.mat r c = 1 then -1 else 0
    stage := "initial" }

/-- The `default_thresholds` dict of `FireModel.is_unsafe` with its
`.get(stage, 0.3)` default. -/
def defaultThreshold (stage : String) : ℚ :=
  if stage = "initial" then 35/100
  else if stage = "growth" then 25/100
  else if stage = "spread" then 20/100
  else 3/10

/-- The `block_thresholds` dict of `FireModel.get_fire_penalty` with its
`.get(stage, 0.55)` default. -/
def blockThreshold (stage : String) : ℚ :=
  if stage = "initial" then 60/100
  else if stage = "growth" then 50/100
  else if stage = "spread" then 40/100
  else 55/100

/-- The `buffer_by_stage` dict (`AntColony.run`, `AntColony._a_star`,
`SignboardGuidanceSystem._compute_path_from_position`) with `.get(stage, 0)`. -/
def bufferByStage (stage : String) : ℕ :=
  if stage = "initial" then 0
  else if stage = "growth" then 1
  else if stage = "spread" then 1
  else 0

/-- Integer interval `[a, b]` as a list (`a, a+1, ..., b`; empty when `b < a`),
modelling a NumPy slice `[a : b+1]`. -/
def intRange (a b : ℤ) : List ℤ :=
  (List.range (b - a + 1).toNat).map (fun i => a + (i : ℤ))

/-- Embeds `FireModel.is_unsafe` (named `dangerAt` here): true when the
cell's own intensity is negative (wall) or any in-bounds cell of the
square of radius `buffer` around it has intensity `>=` the threshold
(the stage default when `thr` is `none`). -/
def dangerAt (fm : FireModel) (r c : ℤ) (thr : Option ℚ) (buffer : ℕ) : Bool :=
  if fm.intensity r c < 0 then true
  else
    let t := thr.getD (defaultThreshold fm.stage)
    let rr0 := max 0 (r - (buffer : ℤ))
    let rr1 := min ((fm.grid.h : ℤ) - 1) (r + (buffer : ℤ))
    let cc0 := max 0 (c - (buffer : ℤ))
    let cc1 := min ((fm.grid.w : ℤ) - 1) (c + (buffer : ℤ))
    (intRange rr0 rr1).any (fun rr =>
      (intRange cc0 cc1).any (fun cc => t ≤ fm.intensity rr cc))

/-- Embeds `FireModel.get_fire_penalty`: `none` models the `float('inf')`
returns (negative intensity, or intensity at or above the stage block
threshold); otherwise `intensity * 20`. -/
def firePenalty (fm : FireModel) (r c : ℤ) : Option ℚ :=
  if fm.intensity r c < 0 then none
  else if blockThreshold fm.stage ≤ fm.intensity r c then none
  else some (fm.intensity r c * 20)

/-- Pointwise update of an intensity array at one coordinate. -/
def setAt (f : ℤ → ℤ → ℚ) (p : Coord) (v : ℚ) : ℤ → ℤ → ℚ :=
  fun r c => if r = p.1 ∧ c = p.2 then v else f r c

/-- One iteration of the loop in `FireModel.ignite`: set the cell to `0.5`
when its current intensity is non-negative. -/
def igniteStep (f : ℤ → ℤ → ℚ) (p : Coord) : ℤ → ℤ → ℚ :=
  if 0 ≤ f p.1 p.2 then setAt f p (1/2) else f

/-- Embeds `FireModel.ignite`. -/
def ignite (fm : FireModel) (positions : List Coord) : FireModel :=
  { fm with intensity := positions.foldl igniteStep fm.intensity }

/-- The neighbors `valid_nbrs` of a source cell in `FireModel._diffuse`:
grid neighbors whose (old) intensity is non-negative. -/
def validNbrs (g : Grid) (old : ℤ → ℤ → ℚ) (p : Coord) : List Coord :=
  (g.neighbors p.1 p.2).filter (fun q => 0 ≤ old q.1 q.2)

/-- One diffusion step of `FireModel._diffuse`: each source cell with old
intensity above `0.01` spreads `rate * intensity / #valid_nbrs` to each
valid neighbor, weighted `1.5` for already-burning targets and `0.8`
for unlit ones.  All reads are from the old array (`new` is a copy),
so the accumulated increments are a plain sum over source cells. -/
def diffuseStep (g : Grid) (rate : ℚ) (old : ℤ → ℤ → ℚ) : ℤ → ℤ → ℚ :=
  fun r c =>
    old r c +
      ((g.cells).map (fun src =>
        if 1/100 < old src.1 src.2 ∧ (r, c) ∈ validNbrs g old src then
          rate * old src.1 src.2 / ((validNbrs g old src).length : ℚ) *
            (if 0 < old r c then 3/2 else 4/5)
        else 0)).sum

/-- `FireModel._diffuse(rate, steps)`. -/
def diffuse (g : Grid) (rate : ℚ) (steps : ℕ) (old : ℤ → ℤ → ℚ) : ℤ → ℤ → ℚ :=
  match steps with
  | 0 => old
  | n + 1 => diffuse g rate n (diffuseStep g rate old)

/-- Embeds `FireModel._amplify`: multiply positive intensities by `factor`. -/
def amplify (factor : ℚ) (old : ℤ → ℤ → ℚ) : ℤ → ℤ → ℚ :=
  fun r c => if 0 < old r c then old r c * factor else old r c

/-- Embeds `FireModel.stage_update`: set the stage, run the stage's
diffusion (and amplification for growth/spread), then clamp in-bounds
cells to `[0,1]` (`np.clip`) and re-pin in-bounds wall cells to `-1`. -/
def stageUpdate (fm : FireModel) (stage : String) : FireModel :=
  let g := fm.grid
  let i1 :=
    if stage = "initial" then diffuse g (5/100) 2 fm.intensity
    else if stage = "growth" then amplify (13/10) (diffuse g (12/100) 3 fm.intensity)
    else if stage = "spread" then amplify (16/10) (diffuse g (20/100) 4 fm.intensity)
    else fm.intensity
  let i2 : ℤ → ℤ → ℚ := fun r c => if g.inB r c then min 1 (max 0 (i1 r c)) else i1 r c
  let i3 : ℤ → ℤ → ℚ := fun r c => if g.inB r c ∧ g.mat r c = 1 then -1 else i2 r c
  { fm with stage := stage, intensity := i3 }

/-- Embeds the identical `_is_valid_step` of `AntColony` and
`SignboardGuidanceSystem` (`g` is the planner's grid, `fm` the fire
model): the target must not be a wall and not unsafe within the buffer;
a diagonal step additionally requires both orthogonal corner cells to
be non-wall and safe. -/
def isValidStep (g : Grid) (fm : FireModel) (buf : ℕ) (curr nxt : Coord) : Bool :=
  if g.mat nxt.1 nxt.2 = 1 then false
  else if dangerAt fm nxt.1 nxt.2 none buf then false
  else
    let dr := nxt.1 - curr.1
    let dc := nxt.2 - curr.2
    if dr ≠ 0 ∧ dc ≠ 0 then
      let o1 : Coord := (curr.1, curr.2 + dc)
      let o2 : Coord := (curr.1 + dr, curr.2)
      if g.mat o1.1 o1.2 = 1 ∨ g.mat o2.1 o2.2 = 1 then false
      else if dangerAt fm o1.1 o1.2 none buf then false
      else if dangerAt fm o2.1 o2.2 none buf then false
      else true
    else true

/-- Embeds `math.hypot` on exact reals: `hypot x y = sqrt (x^2 + y^2)`. -/
noncomputable def hypotR (x y : ℝ) : ℝ := Real.sqrt (x ^ 2 + y ^ 2)

/-- Embeds `_distance` (`AntColony._distance`, `Grid.distance`,
`SignboardGuidanceSystem._distance`): Euclidean distance between cells. -/
noncomputable def cdist (a b : Coord) : ℝ := hypotR ((a.1 - b.1 : ℤ) : ℝ) ((a.2 - b.2 : ℤ) : ℝ)

/-- `min(distance(n, e) for e in exits)`; `0` for an empty exit list (the
source would raise on `min([])`, so theorems assume a nonempty list). -/
noncomputable def minDistToExits (exits : List Coord) (n : Coord) : ℝ :=
  match exits with
  | [] => 0
  | e :: es => es.foldl (fun m x => min m (cdist n x)) (cdist n e)

/-- Python's `round(x, 2)`, idealized as rounding `100*x` to the nearest
integer (ties settle by `round`'s half-up rule, standing in for the
float banker's rounding; no claim depends on tie cases). -/
noncomputable def pyRound2 (x : ℝ) : ℝ := ((round (x * 100) : ℤ) : ℝ) / 100

/-- Embeds `TurningPoint` records produced by
`AntColony.identify_turning_points`. -/
structure TurningPoint where
  position : Coord
  stepIndex : ℕ
  direction : String
  distance : ℝ

/-- Embeds `AntColony._get_turn_direction`: sign of the 2D cross product
of `v1 = prev - curr` and `v2 = next - curr`. -/
def getTurnDirection (v1 v2 : ℤ × ℤ) : String :=
  let cross := v1.1 * v2.2 - v1.2 * v2.1
  if 0 < cross then "left"
  else if cross < 0 then "right"
  else "straight"

/-- Interior-cell scan of `identify_turning_points`: `prev`/`curr` are the
two cells before the remaining list, `i` the index of `curr`, `acc` the
cumulative distance from the route start to `curr`. -/
noncomputable def turnScan (prev curr : Coord) (rest : List Coord) (i : ℕ) (acc : ℝ) :
    List TurningPoint :=
  match rest with
  | [] => []
  | next :: rest' =>
    let v1 : ℤ × ℤ := (prev.1 - curr.1, prev.2 - curr.2)
    let v2 : ℤ × ℤ := (next.1 - curr.1, next.2 - curr.2)
    (if v1 ≠ v2 then [⟨curr, i, getTurnDirection v1 v2, acc⟩] else []) ++
      turnScan curr next rest' (i + 1) (acc + cdist curr next)

/-- Embeds `AntColony.identify_turning_points`: routes shorter than 3
cells yield no turning points; otherwise each interior cell where
`prev - curr` differs from `next - curr` yields a turning point whose
distance is the cumulative step length from the start. -/
noncomputable def identifyTurningPoints (path : List Coord) : List TurningPoint :=
  match path with
  | a :: b :: c :: rest => turnScan a b (c :: rest) 1 (cdist a b)
  | _ => []

/-- A heap entry `(f, (row, col))` of the A* open list. -/
structure PEntry where
  f : ℝ
  nd : Coord

/-- Python's `heapq` compares its `(float, (int, int))` tuples
lexicographically; the heap always pops a minimal entry. -/
noncomputable instance : LinearOrder PEntry :=
  LinearOrder.lift' (β := ℝ ×ₗ (ℤ ×ₗ ℤ)) (fun e => toLex (e.f, toLex e.nd))
    (by
      intro a b hab
      have h1 := congrArg (fun x => (ofLex x).1) hab
      have h2 := congrArg (fun x => ofLex (ofLex x).2) hab
      cases a; cases b
      simp only at h1 h2
      simp_all)

/-- Pop a minimal element (keeping the earlier one on ties) together with
the remaining list: the value-level behavior of `heapq.heappop`. -/
noncomputable def popMin : List PEntry → Option (PEntry × List PEntry)
  | [] => none
  | a :: rest =>
    match popMin rest with
    | none => some (a, [])
    | some (m, r) => if m < a then some (m, a :: r) else some (a, rest)

/-- The mutable state of the A* loops: the open heap, `g_cost`, `parent`. -/
structure AStarSt where
  queue : List PEntry
  gmap : Coord → Option ℝ
  parent : Coord → Option Coord

/-- Map update (`g_cost[n] = v` / `parent[n] = v`). -/
def upd {α : Type} (f : Coord → Option α) (k : Coord) (v : α) : Coord → Option α :=
  fun x => if x = k then some v else f x

/-- `tentative < g_cost.get(n, float('inf'))`. -/
def improves (cur : Option ℝ) (t : ℝ) : Prop := ∀ v, cur = some v → t < v

open Classical in
/-- Relaxation of a single neighbor `n` of the popped `node` (body of the
`for n in self.grid.neighbors(*node)` loop shared by both A* searches):
skip invalid steps and infinite-penalty targets, otherwise update
`g_cost`/`parent` and push when the tentative cost improves. -/
noncomputable def relaxStep (g : Grid) (fm : FireModel) (exits : List Coord)
    (node : Coord) (gnode : ℝ) (st : AStarSt) (n : Coord) : AStarSt :=
  if isValidStep g fm (bufferByStage fm.stage) node n = false then st
  else
    match firePenalty fm n.1 n.2 with
    | none => st
    | some p =>
      let tentative := gnode + cdist node n * (1 + (p : ℝ))
      if improves (st.gmap n) tentative then
        { queue := st.queue ++ [⟨tentative + minDistToExits exits n, n⟩]
          gmap := upd st.gmap n tentative
          parent := upd st.parent n node }
      else st

/-- Relax every grid neighbor of `node`, in source order. -/
noncomputable def relaxAll (g : Grid) (fm : FireModel) (exits : List Coord)
    (node : Coord) (gnode : ℝ) (st : AStarSt) : AStarSt :=
  (g.neighbors node.1 node.2).foldl (relaxStep g fm exits node gnode) st

/-- Parent-chain reconstruction (`path = [node]; while node in parent: ...`),
goal cell first; `none` when the chain is longer than the fuel. -/
def reconstruct (parent : Coord → Option Coord) : ℕ → Coord → Option (List Coord)
  | fuel, node =>
    match parent node with
    | none => some [node]
    | some p =>
      match fuel with
      | 0 => none
      | f + 1 => (reconstruct parent f p).map (fun ch => node :: ch)

/-- The length recomputation of `AntColony._a_star` after reaching a goal:
sum `distance * (1 + penalty)` over the steps; `none` models the
`return None, float('inf')` taken if a step's penalty is infinite. -/
noncomputable def recomputeLen (fm : FireModel) : List Coord → Option ℝ
  | [] => some 0
  | [_] => some 0
  | a :: b :: rest =>
    match firePenalty fm b.1 b.2 with
    | none => none
    | some p =>
      (recomputeLen fm (b :: rest)).map (fun tail => cdist a b * (1 + (p : ℝ)) + tail)

/-- The while-loop of `AntColony._a_star`.  Result: `none` = fuel ran out
(the source loop just keeps going); `some none` = the heap emptied or an
infinite penalty appeared on the reconstructed path (`None, inf`);
`some (some (path, len))` = a route was returned. -/
noncomputable def aStarLoop (g : Grid) (fm : FireModel) (exits : List Coord) :
    ℕ → AStarSt → Option (Option (List Coord × ℝ))
  | 0, _ => none
  | fuel + 1, st =>
    match popMin st.queue with
    | none => some none
    | some (e, rest) =>
      if e.nd ∈ exits then
        match reconstruct st.parent fuel e.nd with
        | none => none
        | some chain =>
          match recomputeLen fm chain.reverse with
          | none => some none
          | some len => some (some (chain.reverse, len))
      else
        match st.gmap e.nd with
        | none => none
        | some gnode => aStarLoop g fm exits fuel (relaxAll g fm exits e.nd gnode { st with queue := rest })

/-- The initial A* state: heap `[(0.0, start)]`, `g_cost = {start: 0.0}`,
empty `parent`. -/
noncomputable def aStarInit (start : Coord) : AStarSt :=
  { queue := [⟨0, start⟩]
    gmap := upd (fun _ => none) start 0
    parent := fun _ => none }

/-- Embeds `AntColony._a_star`. -/
noncomputable def aStarA (g : Grid) (fm : FireModel) (start : Coord) (exits : List Coord)
    (fuel : ℕ) : Option (Option (List Coord × ℝ)) :=
  aStarLoop g fm exits fuel (aStarInit start)

/-- The while-loop of `SignboardGuidanceSystem._compute_path_from_position`:
identical relaxation, but the returned length is `g_cost[path[-1]]`
rather than a recomputation, and there is no infinite-penalty abort. -/
noncomputable def signLoop (g : Grid) (fm : FireModel) (exits : List Coord) :
    ℕ → AStarSt → Option (Option (List Coord × ℝ))
  | 0, _ => none
  | fuel + 1, st =>
    match popMin st.queue with
    | none => some none
    | some (e, rest) =>
      if e.nd ∈ exits then
        match reconstruct st.parent fuel e.nd with
        | none => none
        | some chain =>
          match st.gmap e.nd with
          | none => none
          | some d => some (some (chain.reverse, d))
      else
        match st.gmap e.nd with
        | none => none
        | some gnode => signLoop g fm exits fuel (relaxAll g fm exits e.nd gnode { st with queue := rest })

/-- Embeds `SignboardGuidanceSystem._compute_path_from_position`: a start
cell that is itself an exit short-circuits to `([start], 0.0)`. -/
noncomputable def computePathFromPosition (g : Grid) (fm : FireModel) (exits : List Coord)
    (fuel : ℕ) (start : Coord) : Option (Option (List Coord × ℝ)) :=
  if start ∈ exits then some (some ([start], 0))
  else signLoop g fm exits fuel (aStarInit start)

/-- The finite fire penalty as a real (`0` in the impossible infinite case;
valid routes only enter finite-penalty cells). -/
noncomputable def penV (fm : FireModel) (n : Coord) : ℝ :=
  (((firePenalty fm n.1 n.2).getD 0 : ℚ) : ℝ)

/-- Cost of one step, charged on entering `v`: `distance * (1 + penalty)`. -/
noncomputable def stepCost (fm : FireModel) (u v : Coord) : ℝ :=
  cdist u v * (1 + penV fm v)

/-- A step both searches may take from `u` to `v`: grid neighbor, passes
`_is_valid_step` under the stage buffer, finite fire penalty. -/
def EdgeOk (g : Grid) (fm : FireModel) (u v : Coord) : Prop :=
  v ∈ g.neighbors u.1 u.2 ∧ isValidStep g fm (bufferByStage fm.stage) u v = true ∧
    (firePenalty fm v.1 v.2).isSome = true

/-- `Walk g fm u l`: consecutive `EdgeOk` steps from `u` through `l`. -/
def Walk (g : Grid) (fm : FireModel) : Coord → List Coord → Prop
  | _, [] => True
  | u, v :: t => EdgeOk g fm u v ∧ Walk g fm v t

/-- Final cell of a walk that starts at `u` and passes through `l`. -/
def lastOf (u : Coord) (l : List Coord) : Coord := l.getLastD u

/-- Accumulated plain cost of a walk (no turn penalties). -/
noncomputable def walkCost (fm : FireModel) : Coord → List Coord → ℝ
  | _, [] => 0
  | u, v :: t => stepCost fm u v + walkCost fm v t

/-- A cost-valid route tail from `u` to some exit. -/
def ChainToExit (g : Grid) (fm : FireModel) (exits : List Coord) (u : Coord)
    (l : List Coord) : Prop :=
  Walk g fm u l ∧ lastOf u l ∈ exits

/-- A cost-valid route of the planner: `start` followed by a valid walk
ending at an exit. -/
def ValidRoute (g : Grid) (fm : FireModel) (start : Coord) (exits : List Coord)
    (r : List Coord) : Prop :=
  ∃ tail, r = start :: tail ∧ ChainToExit g fm exits start tail

/-- Plain accumulated cost of a whole route list. -/
noncomputable def plainCost (fm : FireModel) : List Coord → ℝ
  | [] => 0
  | a :: t => walkCost fm a t

/-- The turn penalty term of `_construct_solution` (`0.15` when the step
direction changes; `rp` is the reversed path before the current cell). -/
noncomputable def turnPen (rp : List Coord) (c n : Coord) : ℝ :=
  match rp with
  | [] => 0
  | p :: _ =>
    if ((c.1 - p.1, c.2 - p.2) : ℤ × ℤ) ≠ (n.1 - c.1, n.2 - c.2) then 15/100 else 0

/-- Nondeterministic model of the loop states of
`AntColony._construct_solution` reachable for some random draws:
`AntState rp len` = the loop can be at cell `rp.head` having walked the
reversed path `rp` with accumulated length `len`.  Steps only happen
from non-exit cells, to valid unvisited neighbors with finite penalty;
aborted constructions return no path and are outside this relation. -/
inductive AntState (g : Grid) (fm : FireModel) (start : Coord) (exits : List Coord) :
    List Coord → ℝ → Prop
  | init : AntState g fm start exits [start] 0
  | step {c : Coord} {rp : List Coord} {len : ℝ} {n : Coord} {p : ℚ} :
      AntState g fm start exits (c :: rp) len →
      c ∉ exits →
      n ∈ g.neighbors c.1 c.2 →
      isValidStep g fm (bufferByStage fm.stage) c n = true →
      n ∉ c :: rp →
      firePenalty fm n.1 n.2 = some p →
      AntState g fm start exits (n :: c :: rp)
        (len + cdist c n * (1 + (p : ℝ)) + turnPen rp c n)

/-- A successful return of `_construct_solution` for some random draws:
the loop reached an exit and returned the path walked so far with its
accumulated length. -/
def AntOutcome (g : Grid) (fm : FireModel) (start : Coord) (exits : List Coord)
    (r : List Coord) (len : ℝ) : Prop :=
  ∃ c rp, AntState g fm start exits (c :: rp) len ∧ c ∈ exits ∧ r = (c :: rp).reverse

/-- One step of the best-so-far tracking in `AntColony.run`
(`if length < self.best_len: ...`, starting from `best_len = inf`). -/
noncomputable def bestStep (b : Option (List Coord × ℝ)) (o : List Coord × ℝ) :
    Option (List Coord × ℝ) :=
  match b with
  | none => some o
  | some bb => if o.2 < bb.2 then some o else some bb

/-- The optimizer's best route over the successful ant outcomes, in
construction order. -/
noncomputable def bestOf (outs : List (List Coord × ℝ)) : Option (List Coord × ℝ) :=
  outs.foldl bestStep none

/-- Embeds the finalize step ending `AntColony.run`: return the fallback
route when the optimizer found none (`best_path is None or
isinf(best_len)`, and successful ant lengths are finite) or when the
fallback is strictly shorter; otherwise the optimizer's best. -/
noncomputable def finalizeRun (outs : List (List Coord × ℝ))
    (fallback : Option (List Coord × ℝ)) : Option (List Coord × ℝ) :=
  match bestOf outs with
  | none => fallback
  | some b =>
    match fallback with
    | none => some b
    | some a => if a.2 < b.2 then some a else some b

/-- Embeds `SignboardGuidanceSystem._get_direction_arrow`. -/
def directionArrow (fromPos toPos : Coord) : String :=
  let dr := toPos.1 - fromPos.1
  let dc := toPos.2 - fromPos.2
  if dr = 0 ∧ 0 < dc then "→"
  else if dr = 0 ∧ dc < 0 then "←"
  else if 0 < dr ∧ dc = 0 then "↑"
  else if dr < 0 ∧ dc = 0 then "↓"
  else if 0 < dr ∧ 0 < dc then "↗"
  else if 0 < dr ∧ dc < 0 then "↖"
  else if dr < 0 ∧ 0 < dc then "↘"
  else if dr < 0 ∧ dc < 0 then "↙"
  else "•"

/-- Embeds `SignboardGuidanceSystem._get_turn_direction` (the coarse
LEFT/RIGHT/STRAIGHT label from the first step's deltas). -/
def turnLabel (fromPos toPos : Coord) : String :=
  let dr := toPos.1 - fromPos.1
  let dc := toPos.2 - fromPos.2
  if |dr| < |dc| then (if 0 < dc then "RIGHT" else "LEFT")
  else if |dc| < |dr| then "STRAIGHT"
  else (if 0 < dc then "RIGHT" else "LEFT")

/-- One record of the `signboard_directions` map built by
`SignboardGuidanceSystem.compute_signboard_directions`
(`distanceToExit = none` models `float('inf')`). -/
structure SignEntry where
  position : Coord
  signal : String
  turnSignal : String
  nextPosition : Option Coord
  distanceToExit : Option ℝ
  pathLength : ℕ
  isSafe : Bool

/-- The per-signboard body of `compute_signboard_directions`: an active
arrow entry when the search returned a route longer than one cell,
otherwise `EXIT` (nonempty short route: the signboard is on an exit) or
`BLOCKED` (no route).  `none` = the search ran out of fuel. -/
noncomputable def signboardEntryFor (g : Grid) (fm : FireModel) (exits : List Coord)
    (fuel : ℕ) (pos : Coord) : Option SignEntry :=
  match computePathFromPosition g fm exits fuel pos with
  | none => none
  | some res =>
    match res with
    | some (a :: b :: rest, d) =>
      some { position := pos
             signal := directionArrow pos b
             turnSignal := turnLabel pos b
             nextPosition := some b
             distanceToExit := some (pyRound2 d)
             pathLength := (a :: b :: rest).length
             isSafe := ! dangerAt fm pos.1 pos.2 none 0 }
    | some (_, _) =>
      some { position := pos
             signal := "EXIT"
             turnSignal := "NONE"
             nextPosition := none
             distanceToExit := some 0
             pathLength := 0
             isSafe := false }
    | none =>
      some { position := pos
             signal := "BLOCKED"
             turnSignal := "NONE"
             nextPosition := none
             distanceToExit := none
             pathLength := 0
             isSafe := false }

/-- Embeds `compute_signboard_directions`: the keyed assignment map
(`SIGN_1`, `SIGN_2`, ... in input order). -/
noncomputable def signboardDirections (g : Grid) (fm : FireModel) (exits : List Coord)
    (fuel : ℕ) (locs : List Coord) : List (String × Option SignEntry) :=
  locs.mapIdx (fun i pos => ("SIGN_" ++ toString (i + 1), signboardEntryFor g fm exits fuel pos))

/-- `range(0, len(cells), spacing)` sampling of `compute_corridor_guidance`
(the source raises on `spacing = 0`; theorems use positive spacing). -/
def sampleEvery (spacing : ℕ) : List Coord → List Coord
  | [] => []
  | x :: xs => x :: sampleEvery spacing (xs.drop (spacing - 1))
termination_by l => l.length
decreasing_by simp [List.length_drop]; omega

/-- One record of the corridor guidance list. -/
structure CorridorEntry where
  position : Coord
  signal : String
  turnSignal : String
  distanceToExit : ℝ
  isSafe : Bool

/-- The per-sample loop body of `compute_corridor_guidance`: skip wall
samples, skip samples with no route or a one-cell route, append an
arrow entry otherwise.  `none` = some search ran out of fuel. -/
noncomputable def corridorScan (g : Grid) (fm : FireModel) (exits : List Coord)
    (fuel : ℕ) : List Coord → Option (List CorridorEntry)
  | [] => some []
  | pos :: rest =>
    if g.mat pos.1 pos.2 = 1 then corridorScan g fm exits fuel rest
    else
      match computePathFromPosition g fm exits fuel pos with
      | none => none
      | some (some (_ :: b :: _, d)) =>
        (corridorScan g fm exits fuel rest).map (fun tail =>
          { position := pos
            signal := directionArrow pos b
            turnSignal := turnLabel pos b
            distanceToExit := pyRound2 d
            isSafe := ! dangerAt fm pos.1 pos.2 none 0 } :: tail)
      | some _ => corridorScan g fm exits fuel rest

/-- Embeds `SignboardGuidanceSystem.compute_corridor_guidance`. -/
noncomputable def corridorGuidance (g : Grid) (fm : FireModel) (exits : List Coord)
    (fuel : ℕ) (cells : List Coord) (spacing : ℕ) : Option (List CorridorEntry) :=
  corridorScan g fm exits fuel (sampleEvery spacing cells)

/-- 2D cross product of integer vectors. -/
def crossZ (u v : ℤ × ℤ) : ℤ := u.1 * v.2 - u.2 * v.1

/-- Consecutive cell triples `(prev, curr, next)` of a route. -/
def triples : List Coord → List (Coord × Coord × Coord)
  | a :: b :: c :: rest => (a, b, c) :: triples (b :: c :: rest)
  | _ => []

/-- Incoming step vector `curr - prev` of a triple. -/
def inVec (t : Coord × Coord × Coord) : ℤ × ℤ := (t.2.1.1 - t.1.1, t.2.1.2 - t.1.2)

/-- Outgoing step vector `next - curr` of a triple. -/
def outVec (t : Coord × Coord × Coord) : ℤ × ℤ := (t.2.2.1 - t.2.1.1, t.2.2.2 - t.2.1.2)

/-- The route turns strictly left (positive cross product of incoming and
outgoing step vectors, the spec's sign convention) at every bend. -/
def LeftTurningRoute (path : List Coord) : Prop :=
  ∀ t ∈ triples path, inVec t ≠ outVec t → 0 < crossZ (inVec t) (outVec t)

/-- Every consecutive step of the walk from `u` through `l` equals `d`:
a straight (collinear, constant-direction) route. -/
def StepsConst (d : ℤ × ℤ) : Coord → List Coord → Prop
  | _, [] => True
  | u, v :: t => ((v.1 - u.1, v.2 - u.2) : ℤ × ℤ) = d ∧ StepsConst d v t

/-! Concrete example instances used to instantiate the theorems below. -/

/-- A 1×1 grid consisting of a single wall cell. -/
def gridW1 : Grid := { h := 1, w := 1, mat := fun _ _ => 1 }

/-- Fresh fire model on `gridW1`. -/
def fmW1 : FireModel := mkFireModel gridW1

/-- A 1×2 grid of free cells. -/
def gridF2 : Grid := { h := 1, w := 2, mat := fun _ _ => 0 }

/-- Fresh fire model on `gridF2`. -/
def fmF2 : FireModel := mkFireModel gridF2

/-- A 1×1 grid with a single free cell. -/
def gridF1 : Grid := { h := 1, w := 1, mat := fun _ _ => 0 }

/-- Fresh fire model on `gridF1`. -/
def fmF1 : FireModel := mkFireModel gridF1

/-- A 3×3 grid that is all wall except the center cell: the center is
sealed off, so no exit on the ring is reachable. -/
def gridSeal : Grid := { h := 3, w := 3, mat := fun r c => if r = 1 ∧ c = 1 then 0 else 1 }

/-- Fresh fire model on `gridSeal`. -/
def fmSeal : FireModel := mkFireModel gridSeal

/-- A 2×2 grid of free cells. -/
def gridSq : Grid := { h := 2, w := 2, mat := fun _ _ => 0 }

/-- A 1×3 corridor of free cells. -/
def gridC3 : Grid := { h := 1, w := 3, mat := fun _ _ => 0 }

/-- A hazard state on `gridC3` in which cell `(0,0)` has intensity `0.4`
(unsafe at the initial-stage threshold `0.35`) and the rest are cold. -/
def fmHot : FireModel :=
  { grid := gridC3
    intensity := fun r c => if r = 0 ∧ c = 0 then 2/5 else 0
    stage := "initial" }

/-- Goal-directed search invariant: every neighbor reachable by a valid
step from `n` already has a `g_cost` at most `gv` plus the step cost
(`n` has been fully relaxed at value `gv`). -/
def Expanded (g : Grid) (fm : FireModel) (st : AStarSt) (n : Coord) (gv : ℝ) : Prop :=
  ∀ v, EdgeOk g fm n v → ∃ gval, st.gmap v = some gval ∧ gval ≤ gv + stepCost fm n v

/-- Per-node frontier invariant: a recorded `g_cost` is covered by an open
entry with priority at most `g + h`, unless the node has been fully
relaxed at its current value. -/
def ExactAt (g : Grid) (fm : FireModel) (E : List Coord) (st : AStarSt) (n : Coord) : Prop :=
  ∀ gv, st.gmap n = some gv →
    (∃ e ∈ st.queue, e.nd = n ∧ e.f ≤ gv + minDistToExits E n) ∨ Expanded g fm st n gv

/-- The structural A* loop invariant (everything except `ExactAt`). -/
structure InvCore (g : Grid) (fm : FireModel) (E : List Coord) (s : Coord)
    (st : AStarSt) : Prop where
  gs : st.gmap s = some 0
  gpos : ∀ n v, st.gmap n = some v → 0 ≤ v
  openg : ∀ e ∈ st.queue, ∃ gv, st.gmap e.nd = some gv ∧ gv ≤ e.f
  goalopen : ∀ t gv, t ∈ E → st.gmap t = some gv →
    ∃ e ∈ st.queue, e.nd = t ∧ e.f ≤ gv + minDistToExits E t
  par : ∀ n q, st.parent n = some q → EdgeOk g fm q n ∧
    ∃ gp gn, st.gmap q = some gp ∧ st.gmap n = some gn ∧ gp + stepCost fm q n ≤ gn
  proot : ∀ n, st.gmap n ≠ none → n ≠ s → st.parent n ≠ none

/-- The full A* loop invariant. -/
def FullInv (g : Grid) (fm : FireModel) (E : List Coord) (s : Coord) (st : AStarSt) : Prop :=
  InvCore g fm E s st ∧ ∀ n, ExactAt g fm E st n

/-! ## Theorems -/

/-! ### Heap-order and pop lemmas -/

/-- Comparing entries compares priorities first. -/
theorem PEntry_le_f {a b : PEntry} (h : a ≤ b) : a.f ≤ b.f := by
  have h2 : toLex (a.f, toLex a.nd) ≤ toLex (b.f, toLex b.nd) := h
  rcases (Prod.Lex.le_iff _ _).1 h2 with hlt | ⟨heq, _⟩
  · exact le_of_lt hlt
  · exact le_of_eq heq

/-- `popMin` returns `none` exactly on the empty list. -/
theorem popMin_eq_none {l : List PEntry} : popMin l = none ↔ l = [] := by
  cases l with
  | nil => simp [popMin]
  | cons a rest =>
    simp only [popMin]
    constructor
    · intro h
      rcases hrec : popMin rest with _ | pr
      · rw [hrec] at h; cases h
      · rw [hrec] at h
        rcases pr with ⟨m, r⟩
        dsimp only at h
        by_cases hlt : m < a
        · rw [if_pos hlt] at h; cases h
        · rw [if_neg hlt] at h; cases h
    · intro h; cases h

/-- The list is a permutation of the popped entry and the remainder. -/
theorem popMin_perm : ∀ {l : List PEntry} {m : PEntry} {r : List PEntry},
    popMin l = some (m, r) → l.Perm (m :: r) := by
  intro l
  induction l with
  | nil => intro m r h; cases h
  | cons a rest ih =>
    intro m r h
    simp only [popMin] at h
    rcases hrec : popMin rest with _ | pr
    · rw [hrec] at h
      have : rest = [] := popMin_eq_none.1 hrec
      subst this
      cases h
      exact List.Perm.refl _
    · rw [hrec] at h
      rcases pr with ⟨m0, r0⟩
      dsimp only at h
      have hperm := ih hrec
      by_cases hlt : m0 < a
      · rw [if_pos hlt] at h
        cases h
        exact (hperm.cons a).trans (List.Perm.swap _ _ _)
      · rw [if_neg hlt] at h
        cases h
        exact List.Perm.refl _

/-- The popped entry is minimal in the heap order. -/
theorem popMin_min : ∀ {l : List PEntry} {m : PEntry} {r : List PEntry},
    popMin l = some (m, r) → ∀ e ∈ l, m ≤ e := by
  intro l
  induction l with
  | nil => intro m r h; cases h
  | cons a rest ih =>
    intro m r h e he
    simp only [popMin] at h
    rcases hrec : popMin rest with _ | pr
    · rw [hrec] at h
      have : rest = [] := popMin_eq_none.1 hrec
      subst this
      cases h
      rcases List.mem_singleton.1 he with rfl
      exact le_refl _
    · rw [hrec] at h
      rcases pr with ⟨m0, r0⟩
      dsimp only at h
      by_cases hlt : m0 < a
      · rw [if_pos hlt] at h
        cases h
        rcases List.mem_cons.1 he with rfl | hmem
        · exact le_of_lt hlt
        · exact ih hrec e hmem
      · rw [if_neg hlt] at h
        cases h
        rcases List.mem_cons.1 he with rfl | hmem
        · exact le_refl _
        · exact le_trans (not_lt.1 hlt) (ih hrec e hmem)

/-! ### Metric and cost lemmas -/

/-- A `some` fire penalty is non-negative. -/
theorem firePenalty_some_nonneg {fm : FireModel} {r c : ℤ} {p : ℚ}
    (h : firePenalty fm r c = some p) : 0 ≤ p := by
  unfold firePenalty at h
  by_cases h1 : fm.intensity r c < 0
  · rw [if_pos h1] at h; cases h
  · rw [if_neg h1] at h
    by_cases h2 : blockThreshold fm.stage ≤ fm.intensity r c
    · rw [if_pos h2] at h; cases h
    · rw [if_neg h2] at h
      injection h with h3
      subst h3
      exact mul_nonneg (not_lt.1 h1) (by norm_num)

/-- The finite penalty value is non-negative. -/
theorem penV_nonneg (fm : FireModel) (n : Coord) : 0 ≤ penV fm n := by
  unfold penV
  rcases h : firePenalty fm n.1 n.2 with _ | p
  · simp
  · simp only [Option.getD_some]
    exact_mod_cast firePenalty_some_nonneg h

/-- Distances are non-negative. -/
theorem cdist_nonneg (a b : Coord) : 0 ≤ cdist a b := Real.sqrt_nonneg _

/-- `cdist a a = 0`. -/
theorem cdist_self (a : Coord) : cdist a a = 0 := by
  unfold cdist hypotR
  simp

/-- Step costs are non-negative. -/
theorem stepCost_nonneg (fm : FireModel) (u v : Coord) : 0 ≤ stepCost fm u v :=
  mul_nonneg (cdist_nonneg u v) (by linarith [penV_nonneg fm v])

/-- The geometric distance lower-bounds the step cost. -/
theorem cdist_le_stepCost (fm : FireModel) (u v : Coord) : cdist u v ≤ stepCost fm u v :=
  le_mul_of_one_le_right (cdist_nonneg u v) (by linarith [penV_nonneg fm v])

/-- `cdist` as a complex absolute value. -/
theorem cdist_eq_abs (a b : Coord) :
    cdist a b = Complex.abs ⟨((a.1 - b.1 : ℤ) : ℝ), ((a.2 - b.2 : ℤ) : ℝ)⟩ := by
  unfold cdist hypotR
  rw [Complex.abs_apply, Complex.normSq_mk]
  ring_nf

/-- Triangle inequality for `cdist`. -/
theorem cdist_triangle (a b c : Coord) : cdist a c ≤ cdist a b + cdist b c := by
  rw [cdist_eq_abs a c, cdist_eq_abs a b, cdist_eq_abs b c]
  have hsum : (⟨((a.1 - c.1 : ℤ) : ℝ), ((a.2 - c.2 : ℤ) : ℝ)⟩ : ℂ) =
      ⟨((a.1 - b.1 : ℤ) : ℝ), ((a.2 - b.2 : ℤ) : ℝ)⟩ +
        ⟨((b.1 - c.1 : ℤ) : ℝ), ((b.2 - c.2 : ℤ) : ℝ)⟩ := by
    apply Complex.ext <;> simp <;> push_cast <;> ring
  rw [hsum]
  exact Complex.abs.add_le _ _

/-- Walk costs are non-negative. -/
theorem walkCost_nonneg (fm : FireModel) : ∀ (l : List Coord) (u : Coord),
    0 ≤ walkCost fm u l := by
  intro l
  induction l with
  | nil => intro u; simp [walkCost]
  | cons v t ih =>
    intro u
    have := stepCost_nonneg fm u v
    have := ih v
    simp only [walkCost]
    linarith

/-! ### Minimum-distance (heuristic) lemmas -/

/-- The fold underlying `minDistToExits` is bounded by its seed and by
every scanned distance. -/
theorem foldl_min_le (n : Coord) : ∀ (es : List Coord) (init : ℝ),
    es.foldl (fun m x => min m (cdist n x)) init ≤ init ∧
      ∀ x ∈ es, es.foldl (fun m x => min m (cdist n x)) init ≤ cdist n x := by
  intro es
  induction es with
  | nil => intro init; exact ⟨le_refl _, by intro x hx; cases hx⟩
  | cons y es ih =>
    intro init
    have h := ih (min init (cdist n y))
    refine ⟨le_trans h.1 (min_le_left _ _), ?_⟩
    intro x hx
    rcases List.mem_cons.1 hx with rfl | hmem
    · exact le_trans h.1 (min_le_right _ _)
    · exact h.2 x hmem

/-- The fold value is the seed or one of the scanned distances. -/
theorem foldl_min_mem (n : Coord) : ∀ (es : List Coord) (init : ℝ),
    es.foldl (fun m x => min m (cdist n x)) init = init ∨
      ∃ x ∈ es, es.foldl (fun m x => min m (cdist n x)) init = cdist n x := by
  intro es
  induction es with
  | nil => intro init; exact Or.inl rfl
  | cons y es ih =>
    intro init
    rcases ih (min init (cdist n y)) with h | ⟨x, hx, h⟩
    · rcases min_cases init (cdist n y) with ⟨hmin, _⟩ | ⟨hmin, _⟩
      · exact Or.inl (by rw [List.foldl_cons, h, hmin])
      · exact Or.inr ⟨y, List.mem_cons_self _ _, by rw [List.foldl_cons, h, hmin]⟩
    · exact Or.inr ⟨x, List.mem_cons_of_mem _ hx, h⟩

/-- `minDistToExits` lower-bounds the distance to every exit. -/
theorem minDist_le {E : List Coord} {e : Coord} (n : Coord) (he : e ∈ E) :
    minDistToExits E n ≤ cdist n e := by
  cases E with
  | nil => cases he
  | cons e0 es =>
    rcases List.mem_cons.1 he with rfl | hmem
    · exact (foldl_min_le n es (cdist n e)).1
    · exact (foldl_min_le n es (cdist n e0)).2 e hmem

/-- `minDistToExits` is non-negative. -/
theorem minDist_nonneg (E : List Coord) (n : Coord) : 0 ≤ minDistToExits E n := by
  cases E with
  | nil => exact le_refl 0
  | cons e0 es =>
    show 0 ≤ es.foldl (fun m x => min m (cdist n x)) (cdist n e0)
    rcases foldl_min_mem n es (cdist n e0) with h | ⟨x, _, h⟩
    · rw [h]; exact cdist_nonneg n e0
    · rw [h]; exact cdist_nonneg n x

/-- The heuristic vanishes on exits. -/
theorem minDist_self {E : List Coord} {t : Coord} (ht : t ∈ E) :
    minDistToExits E t = 0 :=
  le_antisymm (le_of_le_of_eq (minDist_le t ht) (cdist_self t)) (minDist_nonneg E t)

/-- Heuristic triangle step. -/
theorem minDist_triangle (E : List Coord) (u v : Coord) :
    minDistToExits E u ≤ cdist u v + minDistToExits E v := by
  cases hE : E with
  | nil =>
    simp only [minDistToExits]
    linarith [cdist_nonneg u v]
  | cons e0 es =>
    rw [← hE]
    have : ∃ x ∈ E, minDistToExits E v = cdist v x := by
      rw [hE]
      rcases foldl_min_mem v es (cdist v e0) with h | ⟨x, hx, h⟩
      · exact ⟨e0, List.mem_cons_self _ _, h⟩
      · exact ⟨x, List.mem_cons_of_mem _ hx, h⟩
    obtain ⟨x, hx, hval⟩ := this
    calc minDistToExits E u ≤ cdist u x := minDist_le u hx
      _ ≤ cdist u v + cdist v x := cdist_triangle u v x
      _ = cdist u v + minDistToExits E v := by rw [hval]

/-- Admissibility: the heuristic lower-bounds the cost of every walk to
an exit. -/
theorem minDist_le_walkCost (g : Grid) (fm : FireModel) (E : List Coord) :
    ∀ (l : List Coord) (u : Coord), Walk g fm u l → lastOf u l ∈ E →
      minDistToExits E u ≤ walkCost fm u l := by
  intro l
  induction l with
  | nil =>
    intro u _ hlast
    simp only [walkCost]
    exact le_of_eq (minDist_self hlast)
  | cons v t ih =>
    intro u hw hlast
    obtain ⟨_, hwt⟩ := hw
    have hlast2 : lastOf v t ∈ E := by
      rwa [lastOf, List.getLastD_cons] at hlast
    have h1 := minDist_triangle E u v
    have h2 := ih v hwt hlast2
    have h3 := cdist_le_stepCost fm u v
    simp only [walkCost]
    linarith

/-! ### Hazard-field invariants (C3, C4) -/

/-- C3: for every stage label and every prior field state, `stage_update`
leaves every in-bounds wall cell at intensity exactly `-1` and clamps
every in-bounds non-wall cell into `[0, 1]`. -/
theorem C3_stageUpdate_clamped (fm : FireModel) (stage : String) (r c : ℤ)
    (h : fm.grid.inB r c) :
    (fm.grid.mat r c = 1 → (stageUpdate fm stage).intensity r c = -1) ∧
    (fm.grid.mat r c ≠ 1 →
      0 ≤ (stageUpdate fm stage).intensity r c ∧ (stageUpdate fm stage).intensity r c ≤ 1) := by
  constructor
  · intro hm
    simp [stageUpdate, h, hm]
  · intro hm
    simp only [stageUpdate]
    simp only [h, hm, and_false, if_false, if_true, and_true, if_pos]
    constructor
    · exact le_min (by norm_num) (le_max_left 0 _)
    · exact min_le_left 1 _

/-- Witness for C3 at a concrete wall cell of a 1×1 grid. -/
theorem C3_stageUpdate_clamped_witness :
    fmW1.grid.inB 0 0 ∧ (stageUpdate fmW1 "growth").intensity 0 0 = -1 :=
  ⟨by decide, (C3_stageUpdate_clamped fmW1 "growth" 0 0 (by decide)).1 rfl⟩

/-- Pointwise description of the `ignite` fold: listed cells with
non-negative current intensity become `0.5`, everything else is kept. -/
theorem ignite_foldl_eq (P : List Coord) : ∀ (f : ℤ → ℤ → ℚ) (r c : ℤ),
    P.foldl igniteStep f r c = if (r, c) ∈ P ∧ 0 ≤ f r c then 1/2 else f r c := by
  induction P with
  | nil => intro f r c; simp
  | cons p P ih =>
    intro f r c
    simp only [List.foldl_cons]
    rw [ih]
    by_cases hp : ((r, c) : Coord) = p
    · subst hp
      by_cases h0 : 0 ≤ f r c
      · have hval : igniteStep f (r, c) r c = 1/2 := by
          simp [igniteStep, setAt, h0]
        rw [hval, ite_self, if_pos ⟨List.mem_cons_self _ _, h0⟩]
      · have hval : igniteStep f (r, c) r c = f r c := by
          simp [igniteStep, h0]
        rw [hval]
        rw [if_neg (fun hand => h0 hand.2), if_neg (fun hand => h0 hand.2)]
    · have hval : igniteStep f p r c = f r c := by
        unfold igniteStep setAt
        have : ¬(r = p.1 ∧ c = p.2) := by
          intro hand
          exact hp (Prod.ext hand.1 hand.2)
        split <;> simp [this]
      rw [hval]
      have hmem : ((r, c) ∈ p :: P) ↔ ((r, c) ∈ P) := by
        simp [List.mem_cons, hp]
      by_cases hc2 : (r, c) ∈ P ∧ 0 ≤ f r c
      · rw [if_pos hc2, if_pos ⟨hmem.2 hc2.1, hc2.2⟩]
      · rw [if_neg hc2, if_neg (fun hand => hc2 ⟨hmem.1 hand.1, hand.2⟩)]

/-- C4: `ignite` sets every listed coordinate whose current intensity is
non-negative to exactly `0.5` (even if it was above `0.5`), leaves
negative-intensity (wall) cells unchanged, and leaves cells not in the
list unchanged. -/
theorem C4_ignite_sets_half (fm : FireModel) (P : List Coord) (r c : ℤ) :
    ((r, c) ∈ P → (0 ≤ fm.intensity r c → (ignite fm P).intensity r c = 1/2) ∧
      (fm.intensity r c < 0 → (ignite fm P).intensity r c = fm.intensity r c)) ∧
    ((r, c) ∉ P → (ignite fm P).intensity r c = fm.intensity r c) := by
  have h : (ignite fm P).intensity r c =
      if (r, c) ∈ P ∧ 0 ≤ fm.intensity r c then 1/2 else fm.intensity r c :=
    ignite_foldl_eq P fm.intensity r c
  refine ⟨fun hm => ⟨fun h0 => ?_, fun hneg => ?_⟩, fun hm => ?_⟩
  · rw [h, if_pos ⟨hm, h0⟩]
  · rw [h, if_neg (fun hand => absurd hand.2 (not_le.2 hneg))]
  · rw [h, if_neg (fun hand => hm hand.1)]

/-- Witness for C4: igniting the already-hot cell `(0,0)` (intensity
`0.4`) resets it to `0.5`. -/
theorem C4_ignite_sets_half_witness :
    ((0, 0) : Coord) ∈ [((0 : ℤ), (0 : ℤ))] ∧ 0 ≤ fmHot.intensity 0 0 ∧
      (ignite fmHot [((0 : ℤ), (0 : ℤ))]).intensity 0 0 = 1/2 :=
  ⟨by decide, by norm_num [fmHot],
    ((C4_ignite_sets_half fmHot [((0 : ℤ), (0 : ℤ))] 0 0).1 (by decide)).1
      (by norm_num [fmHot])⟩

/-! ### Step-validity indexing safety (C10) -/

/-- C10: for an in-bounds `curr` and any `nxt` returned by
`Grid.neighbors`, every cell indexed by `_is_valid_step` is in bounds:
`nxt` itself, and for diagonal steps both orthogonal corner cells. -/
theorem C10_validity_check_in_bounds (g : Grid) (curr nxt : Coord)
    (hc : g.inB curr.1 curr.2) (hn : nxt ∈ g.neighbors curr.1 curr.2) :
    g.inB nxt.1 nxt.2 ∧
      (nxt.1 - curr.1 ≠ 0 → nxt.2 - curr.2 ≠ 0 →
        g.inB curr.1 (curr.2 + (nxt.2 - curr.2)) ∧
          g.inB (curr.1 + (nxt.1 - curr.1)) curr.2) := by
  unfold Grid.neighbors at hn
  obtain ⟨d, _, hif⟩ := List.mem_filterMap.1 hn
  simp only at hif
  by_cases hcond : g.inB (curr.1 + d.1) (curr.2 + d.2) ∧ g.mat (curr.1 + d.1) (curr.2 + d.2) ≠ 1
  · rw [if_pos hcond] at hif
    injection hif with hx
    subst hx
    obtain ⟨hb, _⟩ := hcond
    unfold Grid.inB at hc hb ⊢
    dsimp only at *
    omega
  · rw [if_neg hcond] at hif
    cases hif

/-- Witness for C10 at a concrete diagonal neighbor of a 2×2 free grid. -/
theorem C10_validity_check_in_bounds_witness :
    gridSq.inB 0 0 ∧ ((1 : ℤ), (1 : ℤ)) ∈ gridSq.neighbors 0 0 ∧
      (gridSq.inB 1 1 ∧
        ((1 : ℤ) - 0 ≠ 0 → (1 : ℤ) - 0 ≠ 0 →
          gridSq.inB 0 (0 + ((1 : ℤ) - 0)) ∧ gridSq.inB (0 + ((1 : ℤ) - 0)) 0)) :=
  ⟨by decide, by decide,
    C10_validity_check_in_bounds gridSq (0, 0) (1, 1) (by decide) (by decide)⟩

/-! ### Turning-point labels (C5: corrected) -/

/-- Counterexample to C5 as stated: the collinear three-cell route
`[(0,0),(0,1),(0,2)]` yields a turning point (the extraction emits a
`straight`-labelled point at the interior cell because it compares the
reversed incoming vector `prev - curr` with `next - curr`), not zero
turning points. -/
theorem C5_counterexample :
    identifyTurningPoints [((0 : ℤ), (0 : ℤ)), (0, 1), (0, 2)] ≠ [] := by
  simp [identifyTurningPoints, turnScan]

/-- On a constant-direction route the scan emits a `straight` label at
every interior cell. -/
theorem turnScan_straight (d : ℤ × ℤ) (hd : d ≠ (0, 0)) :
    ∀ (rest : List Coord) (prev curr : Coord) (i : ℕ) (acc : ℝ),
      ((curr.1 - prev.1, curr.2 - prev.2) : ℤ × ℤ) = d → StepsConst d curr rest →
      (turnScan prev curr rest i acc).map TurningPoint.direction =
        List.replicate rest.length "straight" := by
  intro rest
  induction rest with
  | nil =>
    intro prev curr i acc _ _
    simp [turnScan]
  | cons next rest ih =>
    intro prev curr i acc h1 h2
    obtain ⟨hstep, hrest⟩ := h2
    have hd1 : curr.1 - prev.1 = d.1 := congrArg Prod.fst h1
    have hd2 : curr.2 - prev.2 = d.2 := congrArg Prod.snd h1
    have he1 : next.1 - curr.1 = d.1 := congrArg Prod.fst hstep
    have he2 : next.2 - curr.2 = d.2 := congrArg Prod.snd hstep
    have hv1 : ((prev.1 - curr.1, prev.2 - curr.2) : ℤ × ℤ) = (-d.1, -d.2) := by
      rw [Prod.mk.injEq]; omega
    have hne : ((prev.1 - curr.1, prev.2 - curr.2) : ℤ × ℤ) ≠ (next.1 - curr.1, next.2 - curr.2) := by
      rw [hv1, hstep]
      intro hEq
      rw [Prod.mk.injEq] at hEq
      apply hd
      rw [Prod.mk.injEq]
      omega
    have hdir : getTurnDirection (prev.1 - curr.1, prev.2 - curr.2)
        (next.1 - curr.1, next.2 - curr.2) = "straight" := by
      unfold getTurnDirection
      have ha : prev.1 - curr.1 = -d.1 := by omega
      have hb : prev.2 - curr.2 = -d.2 := by omega
      have hcross : (prev.1 - curr.1) * (next.2 - curr.2) -
          (prev.2 - curr.2) * (next.1 - curr.1) = 0 := by
        rw [ha, hb, he1, he2]; ring
      simp [hcross]
    simp only [turnScan, List.length_cons, List.replicate_succ]
    rw [if_pos hne]
    simp only [List.singleton_append, List.map_cons]
    rw [List.cons.injEq]
    exact ⟨hdir, ih curr next (i + 1) (acc + cdist curr next) hstep hrest⟩

/-- On a route that only bends left in the spec's convention, the scan
never emits a `left` label: bends come out `right` and straight
continuations `straight` (the code crosses the reversed incoming vector
with the outgoing one, negating the spec's cross product). -/
theorem turnScan_no_left :
    ∀ (rest : List Coord) (prev curr : Coord) (i : ℕ) (acc : ℝ),
      LeftTurningRoute (prev :: curr :: rest) →
      ∀ tp ∈ turnScan prev curr rest i acc,
        tp.direction = "right" ∨ tp.direction = "straight" := by
  intro rest
  induction rest with
  | nil =>
    intro prev curr i acc _ tp htp
    simp [turnScan] at htp
  | cons next rest ih =>
    intro prev curr i acc hL tp htp
    have hLtail : LeftTurningRoute (curr :: next :: rest) := by
      intro t ht hbend
      refine hL t ?_ hbend
      have : triples (prev :: curr :: next :: rest) =
          (prev, curr, next) :: triples (curr :: next :: rest) := rfl
      rw [this]
      exact List.mem_cons_of_mem _ ht
    simp only [turnScan] at htp
    rcases List.mem_append.1 htp with hmem | hmem
    · by_cases hvv : ((prev.1 - curr.1, prev.2 - curr.2) : ℤ × ℤ) ≠
          (next.1 - curr.1, next.2 - curr.2)
      · rw [if_pos hvv] at hmem
        have htpEq : tp = ⟨curr, i, getTurnDirection (prev.1 - curr.1, prev.2 - curr.2)
            (next.1 - curr.1, next.2 - curr.2), acc⟩ := List.mem_singleton.1 hmem
        have hhmem : ((prev, curr, next) : Coord × Coord × Coord) ∈
            triples (prev :: curr :: next :: rest) := by
          have : triples (prev :: curr :: next :: rest) =
              (prev, curr, next) :: triples (curr :: next :: rest) := rfl
          rw [this]
          exact List.mem_cons_self _ _
        by_cases hb : inVec (prev, curr, next) = outVec (prev, curr, next)
        · right
          rw [htpEq]
          show getTurnDirection _ _ = "straight"
          unfold getTurnDirection
          unfold inVec outVec at hb
          dsimp only at hb
          have e1 : curr.1 - prev.1 = next.1 - curr.1 := congrArg Prod.fst hb
          have e2 : curr.2 - prev.2 = next.2 - curr.2 := congrArg Prod.snd hb
          have hcross : (prev.1 - curr.1) * (next.2 - curr.2) -
              (prev.2 - curr.2) * (next.1 - curr.1) = 0 := by
            rw [← e1, ← e2]; ring
          simp [hcross]
        · left
          have hpos := hL (prev, curr, next) hhmem hb
          unfold crossZ inVec outVec at hpos
          dsimp only at hpos
          rw [htpEq]
          show getTurnDirection _ _ = "right"
          unfold getTurnDirection
          dsimp only
          have hneg : (prev.1 - curr.1) * (next.2 - curr.2) -
              (prev.2 - curr.2) * (next.1 - curr.1) < 0 := by nlinarith [hpos]
          rw [if_neg (by linarith), if_pos hneg]
      · rw [if_neg hvv] at hmem
        simp at hmem
    · exact ih curr next (i + 1) (acc + cdist curr next) hLtail tp hmem

/-- C5 (amended): (a) a straight route — constant nonzero step vector —
yields a `straight`-labelled turning point at every interior cell
(`n - 2` of them), not zero turning points; (b) a route that turns
strictly left at every bend under the spec's cross-product convention
(`cross(incoming, outgoing) > 0`) yields no `left` labels: every
emitted label is `right` (at bends) or `straight` (at straight
continuations), because `_get_turn_direction` receives the reversed
incoming vector `prev - curr`, which negates the spec's cross product. -/
theorem C5_amended_turn_labels (d : ℤ × ℤ) (a b : Coord) (rest : List Coord)
    (path : List Coord) (hd : d ≠ (0, 0)) (hab : ((b.1 - a.1, b.2 - a.2) : ℤ × ℤ) = d)
    (hconst : StepsConst d b rest) (hleft : LeftTurningRoute path) :
    (identifyTurningPoints (a :: b :: rest)).map TurningPoint.direction =
      List.replicate rest.length "straight" ∧
    ∀ tp ∈ identifyTurningPoints path, tp.direction = "right" ∨ tp.direction = "straight" := by
  constructor
  · match rest with
    | [] => simp [identifyTurningPoints]
    | c :: rest' =>
      exact turnScan_straight d hd (c :: rest') a b 1 (cdist a b) hab hconst
  · match path with
    | [] => intro tp htp; simp [identifyTurningPoints] at htp
    | [x] => intro tp htp; simp [identifyTurningPoints] at htp
    | [x, y] => intro tp htp; simp [identifyTurningPoints] at htp
    | x :: y :: z :: rest' =>
      exact turnScan_no_left (z :: rest') x y 1 (cdist x y) hleft

/-- Witness for the amended C5 on a concrete straight route and a
concrete strictly-left-turning route. -/
theorem C5_amended_turn_labels_witness :
    ((0, 1) : ℤ × ℤ) ≠ (0, 0) ∧
    (identifyTurningPoints [((0 : ℤ), (0 : ℤ)), (0, 1), (0, 2)]).map TurningPoint.direction =
      List.replicate 1 "straight" ∧
    ∀ tp ∈ identifyTurningPoints [((1 : ℤ), (0 : ℤ)), (1, 1), (0, 1)],
      tp.direction = "right" ∨ tp.direction = "straight" := by
  have h := C5_amended_turn_labels (0, 1) (0, 0) (0, 1) [((0 : ℤ), (2 : ℤ))]
    [((1 : ℤ), (0 : ℤ)), (1, 1), (0, 1)] (by decide) (by decide)
    (by constructor <;> simp [StepsConst])
    (by
      intro t ht hbend
      have : t = ((1, 0), (1, 1), (0, 1)) := by
        have : triples [((1 : ℤ), (0 : ℤ)), (1, 1), (0, 1)] =
            [((1, 0), (1, 1), (0, 1))] := rfl
        rw [this] at ht
        exact List.mem_singleton.1 ht
      subst this
      decide)
  exact ⟨by decide, h.1, h.2⟩

/-! ### Signboard at an exit (C7) -/

/-- C7: a signboard whose coordinate is itself an exit is assigned signal
`EXIT` with distance-to-exit `0`, and exactly that record is stored for
it in the signboard direction map. -/
theorem C7_signboard_at_exit (g : Grid) (fm : FireModel) (exits : List Coord) (fuel : ℕ)
    (locs : List Coord) (i : ℕ) (hi : i < locs.length)
    (hpos : locs.get ⟨i, hi⟩ ∈ exits) :
    (∃ e, signboardEntryFor g fm exits fuel (locs.get ⟨i, hi⟩) = some e ∧
      e.signal = "EXIT" ∧ e.distanceToExit = some 0) ∧
    ∀ hL : i < (signboardDirections g fm exits fuel locs).length,
      (signboardDirections g fm exits fuel locs).get ⟨i, hL⟩ =
        ("SIGN_" ++ toString (i + 1), signboardEntryFor g fm exits fuel (locs.get ⟨i, hi⟩)) := by
  constructor
  · unfold signboardEntryFor computePathFromPosition
    rw [if_pos hpos]
    exact ⟨_, rfl, rfl, rfl⟩
  · intro hL
    exact List.get_mapIdx locs _ i hi hL

/-- Witness for C7 with a signboard standing on the exit `(0, 2)`. -/
theorem C7_signboard_at_exit_witness :
    ([((0 : ℤ), (2 : ℤ))].get ⟨0, by norm_num⟩ ∈ [((0 : ℤ), (2 : ℤ))]) ∧
    ∃ e, signboardEntryFor gridC3 fmHot [((0 : ℤ), (2 : ℤ))] 0
        ([((0 : ℤ), (2 : ℤ))].get ⟨0, by norm_num⟩) = some e ∧
      e.signal = "EXIT" ∧ e.distanceToExit = some 0 :=
  ⟨by decide,
    (C7_signboard_at_exit gridC3 fmHot [((0 : ℤ), (2 : ℤ))] 0 [((0 : ℤ), (2 : ℤ))] 0
      (by norm_num) (by decide)).1⟩

/-! ### Reproducibility of the deterministic searches (C9) -/

/-- C9: the fallback A* search and the per-point signage search are pure
functions of the grid, hazard-field state, start, exit set, and fuel:
two runs over identical inputs return identical results (same route or
no-route outcome and same cost). -/
theorem C9_fallback_reproducible (g1 g2 : Grid) (fm1 fm2 : FireModel) (s1 s2 : Coord)
    (E1 E2 : List Coord) (fuel1 fuel2 : ℕ)
    (hg : g1 = g2) (hf : fm1 = fm2) (hs : s1 = s2) (hE : E1 = E2) (hfu : fuel1 = fuel2) :
    aStarA g1 fm1 s1 E1 fuel1 = aStarA g2 fm2 s2 E2 fuel2 ∧
    computePathFromPosition g1 fm1 E1 fuel1 s1 = computePathFromPosition g2 fm2 E2 fuel2 s2 := by
  subst hg; subst hf; subst hs; subst hE; subst hfu
  exact ⟨rfl, rfl⟩

/-- Witness for C9 on a concrete 1×2 grid. -/
theorem C9_fallback_reproducible_witness :
    aStarA gridF2 fmF2 (0, 0) [((0 : ℤ), (1 : ℤ))] 5 =
      aStarA gridF2 fmF2 (0, 0) [((0 : ℤ), (1 : ℤ))] 5 ∧
    computePathFromPosition gridF2 fmF2 [((0 : ℤ), (1 : ℤ))] 5 (0, 0) =
      computePathFromPosition gridF2 fmF2 [((0 : ℤ), (1 : ℤ))] 5 (0, 0) :=
  C9_fallback_reproducible gridF2 gridF2 fmF2 fmF2 (0, 0) (0, 0) [((0 : ℤ), (1 : ℤ))]
    [((0 : ℤ), (1 : ℤ))] 5 5 rfl rfl rfl rfl rfl

/-! ### A* invariant: initialization and relaxation -/

/-- `upd` hits its key. -/
theorem upd_self {α : Type} (f : Coord → Option α) (k : Coord) (v : α) :
    upd f k v k = some v := by simp [upd]

/-- `upd` misses other keys. -/
theorem upd_other {α : Type} (f : Coord → Option α) (k : Coord) (v : α) {m : Coord}
    (h : m ≠ k) : upd f k v m = f m := by simp [upd, h]

/-- The finite penalty value under a `some` penalty. -/
theorem penV_of_some {fm : FireModel} {n : Coord} {p : ℚ}
    (h : firePenalty fm n.1 n.2 = some p) : penV fm n = (p : ℝ) := by
  unfold penV
  rw [h]
  rfl

/-- The initial A* state satisfies the loop invariant. -/
theorem inv_init (g : Grid) (fm : FireModel) (E : List Coord) (s : Coord) :
    FullInv g fm E s (aStarInit s) := by
  have hg : ∀ n, (aStarInit s).gmap n = if n = s then some 0 else none := by
    intro n; rfl
  constructor
  · constructor
    · rw [hg]; simp
    · intro n v h
      rw [hg] at h
      by_cases hn : n = s
      · rw [if_pos hn] at h
        injection h with h2
        subst h2
        exact le_refl 0
      · rw [if_neg hn] at h; cases h
    · intro e he
      rcases List.mem_singleton.1 he with rfl
      refine ⟨0, ?_, le_refl 0⟩
      rw [hg]; simp
    · intro t gv ht hgt
      rw [hg] at hgt
      by_cases hn : t = s
      · rw [if_pos hn] at hgt
        injection hgt with h2
        refine ⟨⟨0, s⟩, List.mem_singleton.2 rfl, hn.symm, ?_⟩
        rw [← h2]
        simpa using minDist_nonneg E t
      · rw [if_neg hn] at hgt; cases hgt
    · intro n q h; cases h
    · intro n hn hns
      rw [hg] at hn
      rw [if_neg hns] at hn
      exact absurd rfl hn
  · intro n gv hgv
    rw [hg] at hgv
    by_cases hn : n = s
    · rw [if_pos hn] at hgv
      injection hgv with h2
      left
      refine ⟨⟨0, s⟩, List.mem_singleton.2 rfl, hn.symm, ?_⟩
      rw [← h2]
      simpa using minDist_nonneg E n
    · rw [if_neg hn] at hgv; cases hgv

/-- `relaxStep` on an invalid step is the identity. -/
theorem relaxStep_invalid (g : Grid) (fm : FireModel) (E : List Coord) (node : Coord)
    (gnode : ℝ) (st : AStarSt) (n : Coord)
    (h : isValidStep g fm (bufferByStage fm.stage) node n = false) :
    relaxStep g fm E node gnode st n = st := by
  unfold relaxStep
  rw [if_pos h]

/-- `relaxStep` on an infinite-penalty target is the identity. -/
theorem relaxStep_noPen (g : Grid) (fm : FireModel) (E : List Coord) (node : Coord)
    (gnode : ℝ) (st : AStarSt) (n : Coord)
    (hv : isValidStep g fm (bufferByStage fm.stage) node n = true)
    (hp : firePenalty fm n.1 n.2 = none) :
    relaxStep g fm E node gnode st n = st := by
  unfold relaxStep
  rw [if_neg (by simp [hv]), hp]

/-- `relaxStep` when the tentative cost improves: push and update. -/
theorem relaxStep_push (g : Grid) (fm : FireModel) (E : List Coord) (node : Coord)
    (gnode : ℝ) (st : AStarSt) (n : Coord) (p : ℚ)
    (hv : isValidStep g fm (bufferByStage fm.stage) node n = true)
    (hp : firePenalty fm n.1 n.2 = some p)
    (himp : improves (st.gmap n) (gnode + cdist node n * (1 + (p : ℝ)))) :
    relaxStep g fm E node gnode st n =
      { queue := st.queue ++
          [⟨gnode + cdist node n * (1 + (p : ℝ)) + minDistToExits E n, n⟩]
        gmap := upd st.gmap n (gnode + cdist node n * (1 + (p : ℝ)))
        parent := upd st.parent n node } := by
  unfold relaxStep
  rw [if_neg (by simp [hv]), hp]
  dsimp only
  rw [if_pos himp]

/-- `relaxStep` when the tentative cost does not improve: identity. -/
theorem relaxStep_skip (g : Grid) (fm : FireModel) (E : List Coord) (node : Coord)
    (gnode : ℝ) (st : AStarSt) (n : Coord) (p : ℚ)
    (hv : isValidStep g fm (bufferByStage fm.stage) node n = true)
    (hp : firePenalty fm n.1 n.2 = some p)
    (himp : ¬ improves (st.gmap n) (gnode + cdist node n * (1 + (p : ℝ)))) :
    relaxStep g fm E node gnode st n = st := by
  unfold relaxStep
  rw [if_neg (by simp [hv]), hp]
  dsimp only
  rw [if_neg himp]

/-- Case analysis on one relaxation. -/
theorem relaxStep_shape (g : Grid) (fm : FireModel) (E : List Coord) (node : Coord)
    (gnode : ℝ) (st : AStarSt) (n : Coord) :
    (relaxStep g fm E node gnode st n = st ∧
      ∀ p : ℚ, isValidStep g fm (bufferByStage fm.stage) node n = true →
        firePenalty fm n.1 n.2 = some p →
        ¬ improves (st.gmap n) (gnode + cdist node n * (1 + (p : ℝ)))) ∨
    ∃ p : ℚ, isValidStep g fm (bufferByStage fm.stage) node n = true ∧
      firePenalty fm n.1 n.2 = some p ∧
      improves (st.gmap n) (gnode + cdist node n * (1 + (p : ℝ))) ∧
      relaxStep g fm E node gnode st n =
        { queue := st.queue ++
            [⟨gnode + cdist node n * (1 + (p : ℝ)) + minDistToExits E n, n⟩]
          gmap := upd st.gmap n (gnode + cdist node n * (1 + (p : ℝ)))
          parent := upd st.parent n node } := by
  by_cases hv : isValidStep g fm (bufferByStage fm.stage) node n = false
  · left
    refine ⟨relaxStep_invalid g fm E node gnode st n hv, ?_⟩
    intro p hval _
    rw [hval] at hv
    cases hv
  · have hv2 : isValidStep g fm (bufferByStage fm.stage) node n = true := by
      revert hv
      cases isValidStep g fm (bufferByStage fm.stage) node n <;> simp
    rcases hp : firePenalty fm n.1 n.2 with _ | p
    · left
      refine ⟨relaxStep_noPen g fm E node gnode st n hv2 hp, ?_⟩
      intro q _ hq
      cases hq
    · by_cases himp : improves (st.gmap n) (gnode + cdist node n * (1 + (p : ℝ)))
      · exact Or.inr ⟨p, hv2, rfl, himp, relaxStep_push g fm E node gnode st n p hv2 hp himp⟩
      · left
        refine ⟨relaxStep_skip g fm E node gnode st n p hv2 hp himp, ?_⟩
        intro q _ hq
        injection hq with hq2
        subst hq2
        exact himp

/-- One relaxation preserves the partial invariant, keeps the popped
node's `g_cost`, only lowers `g_cost` values, and establishes the
relaxation bound for the treated neighbor. -/
theorem relaxStep_preserves (g : Grid) (fm : FireModel) (E : List Coord) (s : Coord)
    (node : Coord) (gnode : ℝ) (st : AStarSt) (n : Coord)
    (hmem : n ∈ g.neighbors node.1 node.2)
    (hnn : n ≠ node)
    (hgn : st.gmap node = some gnode)
    (hcore : InvCore g fm E s st)
    (hex : ∀ m, m ≠ node → ExactAt g fm E st m) :
    InvCore g fm E s (relaxStep g fm E node gnode st n) ∧
    (∀ m, m ≠ node → ExactAt g fm E (relaxStep g fm E node gnode st n) m) ∧
    (relaxStep g fm E node gnode st n).gmap node = some gnode ∧
    (∀ m v0, st.gmap m = some v0 →
      ∃ v1, (relaxStep g fm E node gnode st n).gmap m = some v1 ∧ v1 ≤ v0) ∧
    (EdgeOk g fm node n → ∃ gval, (relaxStep g fm E node gnode st n).gmap n = some gval ∧
      gval ≤ gnode + stepCost fm node n) := by
  rcases relaxStep_shape g fm E node gnode st n with ⟨heq, hblock⟩ | ⟨p, hv, hp, himp, heq⟩
  · rw [heq]
    refine ⟨hcore, fun m hm => hex m hm, hgn, fun m v0 h0 => ⟨v0, h0, le_refl v0⟩, ?_⟩
    intro hEdge
    obtain ⟨q, hq⟩ := Option.isSome_iff_exists.1 hEdge.2.2
    have hni := hblock q hEdge.2.1 hq
    unfold improves at hni
    push_neg at hni
    obtain ⟨v0, hv0, hle⟩ := hni
    refine ⟨v0, hv0, ?_⟩
    rw [stepCost, penV_of_some hq]
    linarith
  · -- push case
    have hpnn : 0 ≤ (p : ℝ) := by exact_mod_cast firePenalty_some_nonneg hp
    have hg0 : 0 ≤ gnode := hcore.gpos node gnode hgn
    have htent : 0 ≤ gnode + cdist node n * (1 + (p : ℝ)) := by
      have := cdist_nonneg node n
      nlinarith
    have hns : n ≠ s := by
      intro hns
      have := himp 0 (by rw [hns]; exact hcore.gs)
      linarith
    have hEdge : EdgeOk g fm node n := ⟨hmem, hv, by rw [hp]; rfl⟩
    have hsc : gnode + stepCost fm node n = gnode + cdist node n * (1 + (p : ℝ)) := by
      rw [stepCost, penV_of_some hp]
    rw [heq]
    refine ⟨?_, ?_, ?_, ?_, ?_⟩
    · constructor
      · -- gs
        show upd st.gmap n _ s = some 0
        rw [upd_other st.gmap n _ (Ne.symm hns)]
        exact hcore.gs
      · -- gpos
        intro m v h
        dsimp only at h
        by_cases hm : m = n
        · rw [hm, upd_self] at h
          injection h with h2
          rw [← h2]
          exact htent
        · rw [upd_other st.gmap n _ hm] at h
          exact hcore.gpos m v h
      · -- openg
        intro e he
        dsimp only at he ⊢
        rcases List.mem_append.1 he with hold | hnew
        · obtain ⟨gv, hgv, hle⟩ := hcore.openg e hold
          by_cases hm : e.nd = n
          · rw [hm] at hgv ⊢
            have hlt := himp gv hgv
            exact ⟨_, upd_self st.gmap n _, by linarith⟩
          · rw [upd_other st.gmap n _ hm]
            exact ⟨gv, hgv, hle⟩
        · rcases List.mem_singleton.1 hnew with rfl
          refine ⟨_, upd_self st.gmap n _, ?_⟩
          simp [minDist_nonneg]
      · -- goalopen
        intro t gv ht hgt
        dsimp only at hgt ⊢
        by_cases hm : t = n
        · rw [hm, upd_self] at hgt
          injection hgt with h2
          refine ⟨_, List.mem_append_right _ (List.mem_singleton.2 rfl), hm.symm, ?_⟩
          rw [← h2, hm]
        · rw [upd_other st.gmap n _ hm] at hgt
          obtain ⟨e, he, hend, hef⟩ := hcore.goalopen t gv ht hgt
          exact ⟨e, List.mem_append_left _ he, hend, hef⟩
      · -- par
        intro m q h
        dsimp only at h ⊢
        by_cases hm : m = n
        · rw [hm, upd_self] at h
          injection h with h2
          rw [hm, ← h2]
          refine ⟨hEdge, gnode, _, ?_, upd_self st.gmap n _, ?_⟩
          · rw [upd_other st.gmap n _ (Ne.symm hnn)]
            exact hgn
          · rw [hsc]
        · rw [upd_other st.parent n _ hm] at h
          obtain ⟨hE2, gp, gn, hgp, hgn2, hle⟩ := hcore.par m q h
          by_cases hq : q = n
          · rw [hq] at hE2 hgp hle
            have hlt := himp gp hgp
            rw [hq]
            refine ⟨hE2, _, gn, upd_self st.gmap n _, ?_, ?_⟩
            · rw [upd_other st.gmap n _ hm]
              exact hgn2
            · have := stepCost_nonneg fm n m
              linarith
          · refine ⟨hE2, gp, gn, ?_, ?_, hle⟩
            · rw [upd_other st.gmap n _ hq]
              exact hgp
            · rw [upd_other st.gmap n _ hm]
              exact hgn2
      · -- proot
        intro m hm hms
        dsimp only at hm ⊢
        by_cases hmn : m = n
        · rw [hmn, upd_self]
          exact fun h => Option.noConfusion h
        · rw [upd_other st.gmap n _ hmn] at hm
          rw [upd_other st.parent n _ hmn]
          exact hcore.proot m hm hms
    · -- ExactAt away from node
      intro m hm gv hgv
      dsimp only [ExactAt, Expanded] at hgv ⊢
      by_cases hmn : m = n
      · rw [hmn, upd_self] at hgv
        injection hgv with h2
        left
        rw [hmn]
        refine ⟨_, List.mem_append_right _ (List.mem_singleton.2 rfl), rfl, ?_⟩
        rw [← h2]
      · rw [upd_other st.gmap n _ hmn] at hgv
        rcases hex m hm gv hgv with ⟨e, he, hend, hef⟩ | hexp
        · exact Or.inl ⟨e, List.mem_append_left _ he, hend, hef⟩
        · right
          intro v hEv
          obtain ⟨gval, hgval, hb⟩ := hexp v hEv
          by_cases hvn : v = n
          · rw [hvn] at hgval hb ⊢
            have hlt := himp gval hgval
            exact ⟨_, upd_self st.gmap n _, by linarith⟩
          · rw [upd_other st.gmap n _ hvn]
            exact ⟨gval, hgval, hb⟩
    · -- node's g_cost unchanged
      show upd st.gmap n _ node = some gnode
      rw [upd_other st.gmap n _ (Ne.symm hnn)]
      exact hgn
    · -- monotonicity
      intro m v0 h0
      dsimp only
      by_cases hm : m = n
      · rw [hm] at h0 ⊢
        exact ⟨_, upd_self st.gmap n _, le_of_lt (himp v0 h0)⟩
      · rw [upd_other st.gmap n _ hm]
        exact ⟨v0, h0, le_refl v0⟩
    · -- relaxation bound
      intro _
      dsimp only
      refine ⟨_, upd_self st.gmap n _, ?_⟩
      rw [hsc]

/-- Grid neighbors are distinct from the center cell. -/
theorem neighbors_ne (g : Grid) (r c : ℤ) (n : Coord) (hn : n ∈ g.neighbors r c) :
    n ≠ (r, c) := by
  unfold Grid.neighbors at hn
  obtain ⟨d, hd, hif⟩ := List.mem_filterMap.1 hn
  simp only at hif
  by_cases hcond : g.inB (r + d.1) (c + d.2) ∧ g.mat (r + d.1) (c + d.2) ≠ 1
  · rw [if_pos hcond] at hif
    injection hif with hx
    subst hx
    intro heq
    have h1 : r + d.1 = r := congrArg Prod.fst heq
    have h2 : c + d.2 = c := congrArg Prod.snd heq
    simp only [nbrOffsets, List.mem_cons, List.not_mem_nil, or_false] at hd
    rcases hd with rfl | rfl | rfl | rfl | rfl | rfl | rfl | rfl <;> simp_all <;> omega
  · rw [if_neg hcond] at hif
    cases hif

/-- Last cell of a one-longer walk. -/
theorem lastOf_snoc : ∀ (l : List Coord) (u v : Coord), lastOf u (l ++ [v]) = v := by
  intro l
  induction l with
  | nil => intro u v; rfl
  | cons a l ih =>
    intro u v
    rw [List.cons_append, lastOf, List.getLastD_cons]
    exact ih a v

/-- Appending a valid step to a walk. -/
theorem walk_snoc (g : Grid) (fm : FireModel) :
    ∀ (l : List Coord) (u v : Coord), Walk g fm u l → EdgeOk g fm (lastOf u l) v →
      Walk g fm u (l ++ [v]) := by
  intro l
  induction l with
  | nil =>
    intro u v _ hE
    exact ⟨hE, trivial⟩
  | cons a l ih =>
    intro u v hw hE
    obtain ⟨hE1, hw2⟩ := hw
    rw [lastOf, List.getLastD_cons] at hE
    exact ⟨hE1, ih a v hw2 hE⟩

/-- Cost of a one-longer walk. -/
theorem walkCost_snoc (fm : FireModel) :
    ∀ (l : List Coord) (u v : Coord),
      walkCost fm u (l ++ [v]) = walkCost fm u l + stepCost fm (lastOf u l) v := by
  intro l
  induction l with
  | nil =>
    intro u v
    simp [walkCost, lastOf]
  | cons a l ih =>
    intro u v
    rw [List.cons_append]
    show stepCost fm u a + walkCost fm a (l ++ [v]) = _
    rw [ih a v]
    have hl : lastOf u (a :: l) = lastOf a l := by
      rw [lastOf, List.getLastD_cons]
      rfl
    rw [hl]
    show _ = stepCost fm u a + walkCost fm a l + stepCost fm (lastOf a l) v
    ring

/-- Folding the relaxation over a neighbor list preserves the partial
invariant, keeps the popped node's `g_cost`, only lowers `g_cost`
values, and establishes the relaxation bound for every treated
neighbor. -/
theorem relaxList_preserves (g : Grid) (fm : FireModel) (E : List Coord) (s : Coord)
    (node : Coord) (gnode : ℝ) :
    ∀ (l : List Coord) (st : AStarSt),
      (∀ n ∈ l, n ∈ g.neighbors node.1 node.2) →
      st.gmap node = some gnode →
      InvCore g fm E s st →
      (∀ m, m ≠ node → ExactAt g fm E st m) →
      InvCore g fm E s (l.foldl (relaxStep g fm E node gnode) st) ∧
      (∀ m, m ≠ node → ExactAt g fm E (l.foldl (relaxStep g fm E node gnode) st) m) ∧
      (l.foldl (relaxStep g fm E node gnode) st).gmap node = some gnode ∧
      (∀ m v0, st.gmap m = some v0 →
        ∃ v1, (l.foldl (relaxStep g fm E node gnode) st).gmap m = some v1 ∧ v1 ≤ v0) ∧
      (∀ n ∈ l, EdgeOk g fm node n →
        ∃ gval, (l.foldl (relaxStep g fm E node gnode) st).gmap n = some gval ∧
          gval ≤ gnode + stepCost fm node n) := by
  intro l
  induction l with
  | nil =>
    intro st _ hgn hcore hex
    refine ⟨hcore, hex, hgn, fun m v0 h0 => ⟨v0, h0, le_refl v0⟩, ?_⟩
    intro n hn
    cases hn
  | cons n l ih =>
    intro st hmem hgn hcore hex
    have hnmem := hmem n (List.mem_cons_self _ _)
    have hnn : n ≠ node := by
      have h := neighbors_ne g node.1 node.2 n hnmem
      simpa using h
    obtain ⟨hcore1, hex1, hgn1, hmono1, hbound1⟩ :=
      relaxStep_preserves g fm E s node gnode st n hnmem hnn hgn hcore hex
    obtain ⟨hcoreF, hexF, hgnF, hmonoF, hboundF⟩ :=
      ih (relaxStep g fm E node gnode st n)
        (fun m hm => hmem m (List.mem_cons_of_mem _ hm)) hgn1 hcore1 hex1
    rw [List.foldl_cons]
    refine ⟨hcoreF, hexF, hgnF, ?_, ?_⟩
    · intro m v0 h0
      obtain ⟨v1, h1, hle1⟩ := hmono1 m v0 h0
      obtain ⟨v2, h2, hle2⟩ := hmonoF m v1 h1
      exact ⟨v2, h2, le_trans hle2 hle1⟩
    · intro m hm hEdge
      rcases List.mem_cons.1 hm with rfl | hm2
      · obtain ⟨gval, hgval, hb⟩ := hbound1 hEdge
        obtain ⟨v2, h2, hle2⟩ := hmonoF m gval hgval
        exact ⟨v2, h2, le_trans hle2 hb⟩
      · exact hboundF m hm2 hEdge

/-- Popping a non-goal node and relaxing all its neighbors restores the
full invariant. -/
theorem pop_relax_preserves (g : Grid) (fm : FireModel) (E : List Coord) (s : Coord)
    (st : AStarSt) (e : PEntry) (rest : List PEntry) (gnode : ℝ)
    (hI : FullInv g fm E s st)
    (hpop : popMin st.queue = some (e, rest))
    (hng : e.nd ∉ E)
    (hgn : st.gmap e.nd = some gnode) :
    FullInv g fm E s (relaxAll g fm E e.nd gnode { st with queue := rest }) := by
  obtain ⟨hcore, hex⟩ := hI
  have hperm := popMin_perm hpop
  have hsub : ∀ x ∈ rest, x ∈ st.queue := fun x hx =>
    hperm.mem_iff.2 (List.mem_cons_of_mem _ hx)
  have hkeep : ∀ e2 ∈ st.queue, e2.nd ≠ e.nd → e2 ∈ rest := by
    intro e2 he2 hne
    rcases List.mem_cons.1 (hperm.mem_iff.1 he2) with rfl | h
    · exact absurd rfl hne
    · exact h
  have hcore0 : InvCore g fm E s { st with queue := rest } := by
    constructor
    · exact hcore.gs
    · exact hcore.gpos
    · intro e2 he2
      exact hcore.openg e2 (hsub e2 he2)
    · intro t gv ht hgt
      obtain ⟨e2, he2, hend, hef⟩ := hcore.goalopen t gv ht hgt
      refine ⟨e2, hkeep e2 he2 ?_, hend, hef⟩
      rw [hend]
      intro hteq
      exact hng (hteq ▸ ht)
    · exact hcore.par
    · exact hcore.proot
  have hex0 : ∀ m, m ≠ e.nd → ExactAt g fm E { st with queue := rest } m := by
    intro m hm gv hgv
    rcases hex m gv hgv with ⟨e2, he2, hend, hef⟩ | hexp
    · left
      refine ⟨e2, hkeep e2 he2 ?_, hend, hef⟩
      rw [hend]
      exact hm
    · exact Or.inr hexp
  unfold relaxAll
  obtain ⟨hcoreF, hexF, hgnF, _, hboundF⟩ :=
    relaxList_preserves g fm E s e.nd gnode (g.neighbors e.nd.1 e.nd.2)
      { st with queue := rest } (fun n hn => hn) hgn hcore0 hex0
  refine ⟨hcoreF, ?_⟩
  intro m
  by_cases hm : m = e.nd
  · subst hm
    intro gv hgv
    right
    intro v hEv
    obtain ⟨gval, hgval, hb⟩ := hboundF v hEv.1 hEv
    have hgveq : gv = gnode := by
      rw [hgnF] at hgv
      injection hgv with h2
      exact h2.symm
    rw [hgveq]
    exact ⟨gval, hgval, hb⟩
  · exact hexF m hm

/-- A successfully reconstructed parent chain is a valid walk from the
start whose cost is bounded by the node's recorded `g_cost`. -/
theorem reconstruct_ok (g : Grid) (fm : FireModel) (E : List Coord) (s : Coord)
    (st : AStarSt) (hcore : InvCore g fm E s st) :
    ∀ (fuel : ℕ) (node : Coord) (chain : List Coord) (gn : ℝ),
      st.gmap node = some gn →
      reconstruct st.parent fuel node = some chain →
      ∃ tail, chain.reverse = s :: tail ∧ Walk g fm s tail ∧
        lastOf s tail = node ∧ walkCost fm s tail ≤ gn := by
  have hroot : ∀ (node : Coord) (gn : ℝ), st.gmap node = some gn →
      st.parent node = none → node = s := by
    intro node gn hg hpar
    by_contra hne
    exact absurd hpar (hcore.proot node (by rw [hg]; exact fun h => Option.noConfusion h) hne)
  intro fuel
  induction fuel with
  | zero =>
    intro node chain gn hg hrec
    unfold reconstruct at hrec
    rcases hpar : st.parent node with _ | q
    · rw [hpar] at hrec
      dsimp only at hrec
      injection hrec with h2
      have hns := hroot node gn hg hpar
      subst hns
      refine ⟨[], ?_, trivial, rfl, ?_⟩
      · rw [← h2]; rfl
      · show (0 : ℝ) ≤ gn
        exact hcore.gpos node gn hg
    · rw [hpar] at hrec
      dsimp only at hrec
      cases hrec
  | succ f ih =>
    intro node chain gn hg hrec
    unfold reconstruct at hrec
    rcases hpar : st.parent node with _ | q
    · rw [hpar] at hrec
      dsimp only at hrec
      injection hrec with h2
      have hns := hroot node gn hg hpar
      subst hns
      refine ⟨[], ?_, trivial, rfl, ?_⟩
      · rw [← h2]; rfl
      · show (0 : ℝ) ≤ gn
        exact hcore.gpos node gn hg
    · rw [hpar] at hrec
      dsimp only at hrec
      rcases hq : reconstruct st.parent f q with _ | ch
      · rw [hq] at hrec
        cases hrec
      · rw [hq] at hrec
        injection hrec with h2
        obtain ⟨hE2, gp, gn2, hgp, hgn2, hle⟩ := hcore.par node q hpar
        have hgneq : gn2 = gn := by
          rw [hg] at hgn2
          injection hgn2 with h3
          exact h3.symm
        obtain ⟨tail, hrev, hwalk, hlast, hcost⟩ := ih q ch gp hgp hq
        refine ⟨tail ++ [node], ?_, ?_, lastOf_snoc tail s node, ?_⟩
        · rw [← h2]
          show (node :: ch).reverse = _
          rw [List.reverse_cons, hrev]
          rfl
        · exact walk_snoc g fm tail s node hwalk (hlast ▸ hE2)
        · rw [walkCost_snoc fm tail s node, hlast]
          rw [← hgneq] at *
          linarith

/-- The length recomputation along a valid walk succeeds and equals the
walk cost. -/
theorem recomputeLen_eq (g : Grid) (fm : FireModel) :
    ∀ (l : List Coord) (u : Coord), Walk g fm u l →
      recomputeLen fm (u :: l) = some (walkCost fm u l) := by
  intro l
  induction l with
  | nil => intro u _; rfl
  | cons v t ih =>
    intro u hw
    obtain ⟨hE, hw2⟩ := hw
    obtain ⟨p, hp⟩ := Option.isSome_iff_exists.1 hE.2.2
    show recomputeLen fm (u :: v :: t) = _
    unfold recomputeLen
    rw [hp, ih v hw2]
    show some (cdist u v * (1 + (p : ℝ)) + walkCost fm v t) = _
    rw [show walkCost fm u (v :: t) = stepCost fm u v + walkCost fm v t from rfl]
    rw [stepCost, penV_of_some hp]

/-- Frontier bound: when an entry is popped, its priority is at most the
cost of every valid walk from a recorded node to an exit, offset by
that node's `g_cost`. -/
theorem frontier_bound (g : Grid) (fm : FireModel) (E : List Coord) (s : Coord)
    (st : AStarSt) (e : PEntry) (rest : List PEntry)
    (hI : FullInv g fm E s st)
    (hpop : popMin st.queue = some (e, rest)) :
    ∀ (l : List Coord) (u : Coord) (gu : ℝ),
      st.gmap u = some gu → Walk g fm u l → lastOf u l ∈ E →
      e.f ≤ gu + walkCost fm u l := by
  obtain ⟨hcore, hex⟩ := hI
  intro l
  induction l with
  | nil =>
    intro u gu hgu _ hlast
    have hlast2 : u ∈ E := hlast
    obtain ⟨e2, he2, hend, hef⟩ := hcore.goalopen u gu hlast2 hgu
    have hmd : minDistToExits E u = 0 := minDist_self hlast2
    have h1 : e.f ≤ e2.f := PEntry_le_f (popMin_min hpop e2 he2)
    rw [hmd] at hef
    show e.f ≤ gu + 0
    linarith
  | cons v t ih =>
    intro u gu hgu hw hlast
    obtain ⟨hE2, hw2⟩ := hw
    rw [lastOf, List.getLastD_cons] at hlast
    rcases hex u gu hgu with ⟨e2, he2, hend, hef⟩ | hexp
    · have h1 : e.f ≤ e2.f := PEntry_le_f (popMin_min hpop e2 he2)
      have h2 : minDistToExits E u ≤ walkCost fm u (v :: t) :=
        minDist_le_walkCost g fm E (v :: t) u ⟨hE2, hw2⟩
          (by rw [lastOf, List.getLastD_cons]; exact hlast)
      linarith
    · obtain ⟨gv, hgv, hb⟩ := hexp v hE2
      have h3 := ih v gv hgv hw2 hlast
      show e.f ≤ gu + (stepCost fm u v + walkCost fm v t)
      linarith

/-- Soundness and optimality of the fallback loop: a returned route is a
valid route from `s` to an exit, and its reported length is at most the
cost of every valid route. -/
theorem aStarLoop_main (g : Grid) (fm : FireModel) (E : List Coord) (s : Coord) :
    ∀ (fuel : ℕ) (st : AStarSt) (p : List Coord) (len : ℝ),
      FullInv g fm E s st →
      aStarLoop g fm E fuel st = some (some (p, len)) →
      (∃ tail, p = s :: tail ∧ Walk g fm s tail ∧ lastOf s tail ∈ E) ∧
      ∀ l2, Walk g fm s l2 → lastOf s l2 ∈ E → len ≤ walkCost fm s l2 := by
  intro fuel
  induction fuel with
  | zero =>
    intro st p len _ h
    cases h
  | succ f ih =>
    intro st p len hI h
    unfold aStarLoop at h
    rcases hpop : popMin st.queue with _ | er
    · rw [hpop] at h
      dsimp only at h
      injection h with h2
      cases h2
    · obtain ⟨e, rest⟩ := er
      rw [hpop] at h
      dsimp only at h
      by_cases hgoal : e.nd ∈ E
      · rw [if_pos hgoal] at h
        have hein : e ∈ st.queue := (popMin_perm hpop).mem_iff.2 (List.mem_cons_self _ _)
        obtain ⟨gv, hgv, hgvf⟩ := hI.1.openg e hein
        rcases hrec : reconstruct st.parent f e.nd with _ | chain
        · rw [hrec] at h
          cases h
        · rw [hrec] at h
          dsimp only at h
          obtain ⟨tail, hrev, hwalk, hlast, hcost⟩ :=
            reconstruct_ok g fm E s st hI.1 f e.nd chain gv hgv hrec
          rcases hlen : recomputeLen fm chain.reverse with _ | len2
          · rw [hlen] at h
            dsimp only at h
            injection h with h2
            cases h2
          · rw [hlen] at h
            dsimp only at h
            injection h with h2
            injection h2 with h3
            have hp : p = chain.reverse := (congrArg Prod.fst h3).symm
            have hlen2 : len = len2 := (congrArg Prod.snd h3).symm
            have hre : recomputeLen fm chain.reverse = some (walkCost fm s tail) := by
              rw [hrev]
              exact recomputeLen_eq g fm tail s hwalk
            rw [hre] at hlen
            injection hlen with h4
            constructor
            · refine ⟨tail, by rw [hp, hrev], hwalk, ?_⟩
              rw [hlast]
              exact hgoal
            · intro l2 hw2 hl2
              have hfb := frontier_bound g fm E s st e rest hI hpop l2 s 0 hI.1.gs hw2 hl2
              linarith [hcost, hgvf, hfb, h4, hlen2]
      · rw [if_neg hgoal] at h
        rcases hgn : st.gmap e.nd with _ | gnode
        · rw [hgn] at h
          cases h
        · rw [hgn] at h
          exact ih _ p len (pop_relax_preserves g fm E s st e rest gnode hI hpop hgoal hgn) h

/-! ### The nondeterministic ant model -/

/-- The turn penalty is non-negative. -/
theorem turnPen_nonneg (rp : List Coord) (c n : Coord) : 0 ≤ turnPen rp c n := by
  cases rp with
  | nil => exact le_refl 0
  | cons q t =>
    unfold turnPen
    dsimp only
    split <;> norm_num

/-- Every reachable ant-construction state walks a valid path from the
start whose plain cost is bounded by the accumulated length. -/
theorem antState_walk (g : Grid) (fm : FireModel) (s : Coord) (E : List Coord) :
    ∀ {rp : List Coord} {len : ℝ}, AntState g fm s E rp len →
      ∃ tail, rp.reverse = s :: tail ∧ Walk g fm s tail ∧
        lastOf s tail = rp.headD s ∧ walkCost fm s tail ≤ len := by
  intro rp len h
  induction h with
  | init => exact ⟨[], rfl, trivial, rfl, le_refl 0⟩
  | @step c rp0 len0 n p _ hcE hmem hval hnotin hpen ih =>
    obtain ⟨tail, hrev, hwalk, hlast, hcost⟩ := ih
    have hlast2 : lastOf s tail = c := hlast
    have hE2 : EdgeOk g fm c n := ⟨hmem, hval, by rw [hpen]; rfl⟩
    refine ⟨tail ++ [n], ?_, ?_, ?_, ?_⟩
    · rw [List.reverse_cons, hrev]
      rfl
    · refine walk_snoc g fm tail s n hwalk ?_
      rw [hlast2]
      exact hE2
    · rw [lastOf_snoc]
      rfl
    · rw [walkCost_snoc fm tail s n, hlast2]
      have h1 : stepCost fm c n = cdist c n * (1 + (p : ℝ)) := by
        rw [stepCost, penV_of_some hpen]
      have h2 := turnPen_nonneg rp0 c n
      linarith

/-- A successful ant outcome is a cost-valid route whose plain cost is at
most the ant's accumulated length (the length adds turn penalties). -/
theorem antOutcome_valid (g : Grid) (fm : FireModel) (s : Coord) (E : List Coord)
    (r : List Coord) (len : ℝ) (h : AntOutcome g fm s E r len) :
    ValidRoute g fm s E r ∧ plainCost fm r ≤ len := by
  obtain ⟨c, rp, hstate, hcE, hr⟩ := h
  obtain ⟨tail, hrev, hwalk, hlast, hcost⟩ := antState_walk g fm s E hstate
  have hlast2 : lastOf s tail = c := hlast
  constructor
  · refine ⟨tail, by rw [hr, hrev], hwalk, ?_⟩
    rw [hlast2]
    exact hcE
  · rw [hr, hrev]
    show walkCost fm s tail ≤ len
    exact hcost

/-- When the start is itself an exit, the only reachable ant state is the
initial one. -/
theorem antState_start_exit (g : Grid) (fm : FireModel) (s : Coord) (E : List Coord)
    (hs : s ∈ E) :
    ∀ {rp : List Coord} {len : ℝ}, AntState g fm s E rp len → rp = [s] ∧ len = 0 := by
  intro rp len h
  induction h with
  | init => exact ⟨rfl, rfl⟩
  | @step c rp0 len0 n p _ hcE _ _ _ _ ih =>
    obtain ⟨h1, _⟩ := ih
    injection h1 with h2 _
    subst h2
    exact absurd hs hcE

/-! ### Unreachable exits (C2) -/

/-- C2: when no exit is reachable from the start under the current hazard
constraints (no cost-valid route exists), the stochastic optimizer can
produce no route, every completed run of the deterministic fallback
reports the no-route condition (`None, inf` — modelled `none`), and the
planner's finalize step emits no partial route. -/
theorem C2_unreachable_no_route (g : Grid) (fm : FireModel) (s : Coord) (E : List Coord)
    (hE : E ≠ []) (hnone : ∀ r, ¬ ValidRoute g fm s E r) :
    (∀ r len, ¬ AntOutcome g fm s E r len) ∧
    (∀ fuel res, aStarA g fm s E fuel = some res → res = none) ∧
    (∀ fuel res outs, (∀ o ∈ outs, AntOutcome g fm s E o.1 o.2) →
      aStarA g fm s E fuel = some res → finalizeRun outs res = none) := by
  have hant : ∀ r len, ¬ AntOutcome g fm s E r len := by
    intro r len h
    exact hnone r (antOutcome_valid g fm s E r len h).1
  have hastar : ∀ fuel res, aStarA g fm s E fuel = some res → res = none := by
    intro fuel res h
    rcases res with _ | pr
    · rfl
    · obtain ⟨p, len⟩ := pr
      obtain ⟨⟨tail, hp, hw, hl⟩, _⟩ :=
        aStarLoop_main g fm E s fuel (aStarInit s) p len (inv_init g fm E s) h
      exact absurd ⟨tail, hp, hw, hl⟩ (hnone p)
  refine ⟨hant, hastar, ?_⟩
  intro fuel res outs houts h
  have houts0 : outs = [] := by
    cases outs with
    | nil => rfl
    | cons o t => exact absurd (houts o (List.mem_cons_self _ _)) (hant o.1 o.2)
  subst houts0
  rw [hastar fuel res h]
  rfl

/-- Witness for C2: the sealed 3×3 grid whose only free cell is the
start, with the exit on the wall ring. -/
theorem C2_unreachable_no_route_witness :
    (([((0 : ℤ), (0 : ℤ))] : List Coord) ≠ []) ∧
    (∀ r, ¬ ValidRoute gridSeal fmSeal (1, 1) [((0 : ℤ), (0 : ℤ))] r) ∧
    (∀ fuel res, aStarA gridSeal fmSeal (1, 1) [((0 : ℤ), (0 : ℤ))] fuel = some res →
      res = none) := by
  have hnone : ∀ r, ¬ ValidRoute gridSeal fmSeal (1, 1) [((0 : ℤ), (0 : ℤ))] r := by
    intro r hr
    obtain ⟨tail, hr1, hw, hl⟩ := hr
    cases tail with
    | nil => exact absurd hl (by decide)
    | cons v t =>
      obtain ⟨hE2, _⟩ := hw
      have hmem := hE2.1
      have hnb : gridSeal.neighbors 1 1 = [] := by decide
      rw [hnb] at hmem
      cases hmem
  exact ⟨by decide, hnone,
    (C2_unreachable_no_route gridSeal fmSeal (1, 1) [((0 : ℤ), (0 : ℤ))]
      (by decide) hnone).2.1⟩

/-! ### Start on an exit (C6) -/

/-- Folding best-so-far over outcomes that all equal `o0`. -/
theorem bestOf_const_aux (o0 : List Coord × ℝ) :
    ∀ (outs : List (List Coord × ℝ)) (acc : Option (List Coord × ℝ)),
      (∀ o ∈ outs, o = o0) → (acc = none ∨ acc = some o0) →
      outs.foldl bestStep acc = none ∨ outs.foldl bestStep acc = some o0 := by
  intro outs
  induction outs with
  | nil => intro acc _ hacc; exact hacc
  | cons o t ih =>
    intro acc hmem hacc
    have ho : o = o0 := hmem o (List.mem_cons_self _ _)
    subst ho
    have hstep : bestStep acc o = some o := by
      rcases hacc with rfl | rfl
      · rfl
      · show (if o.2 < o.2 then some o else some o) = some o
        rw [if_neg (lt_irrefl o.2)]
    rw [List.foldl_cons, hstep]
    exact ih (some o) (fun x hx => hmem x (List.mem_cons_of_mem _ hx)) (Or.inr rfl)

/-- The finalize step is the identity when the optimizer's outcomes and
the fallback all carry the same route. -/
theorem finalizeRun_const (o0 : List Coord × ℝ) (outs : List (List Coord × ℝ))
    (houts : ∀ o ∈ outs, o = o0) :
    finalizeRun outs (some o0) = some o0 := by
  unfold finalizeRun bestOf
  rcases bestOf_const_aux o0 outs none houts (Or.inl rfl) with h | h <;> rw [h]
  dsimp only
  rw [if_neg (lt_irrefl o0.2)]

/-- C6: when the occupant's start cell is itself an exit, the fallback
returns the single-cell route `[start]` with cost `0`, the optimizer can
only produce that same outcome, the finalize step returns it, and the
turning-point extraction on it is empty. -/
theorem C6_start_at_exit (g : Grid) (fm : FireModel) (s : Coord) (E : List Coord)
    (hs : s ∈ E) :
    (∀ fuel, 1 ≤ fuel → aStarA g fm s E fuel = some (some ([s], 0))) ∧
    (∀ r len, AntOutcome g fm s E r len → r = [s] ∧ len = 0) ∧
    (∀ outs, (∀ o ∈ outs, AntOutcome g fm s E o.1 o.2) →
      finalizeRun outs (some ([s], 0)) = some ([s], 0)) ∧
    identifyTurningPoints [s] = [] := by
  have hout : ∀ r len, AntOutcome g fm s E r len → r = [s] ∧ len = 0 := by
    intro r len h
    obtain ⟨c, rp, hstate, hcE, hr⟩ := h
    obtain ⟨h1, h2⟩ := antState_start_exit g fm s E hs hstate
    rw [h1] at hr
    exact ⟨by rw [hr]; rfl, h2⟩
  refine ⟨?_, hout, ?_, rfl⟩
  · intro fuel hfuel
    obtain ⟨f, rfl⟩ : ∃ f, fuel = f + 1 := ⟨fuel - 1, by omega⟩
    show aStarLoop g fm E (f + 1) (aStarInit s) = _
    unfold aStarLoop
    have hpop : popMin (aStarInit s).queue = some (⟨0, s⟩, []) := rfl
    rw [hpop]
    dsimp only
    rw [if_pos hs]
    have hrec : reconstruct (aStarInit s).parent f s = some [s] := by
      unfold reconstruct
      rfl
    rw [hrec]
    rfl
  · intro outs houts
    apply finalizeRun_const ([s], 0) outs
    intro o ho
    obtain ⟨h1, h2⟩ := hout o.1 o.2 (houts o ho)
    rcases o with ⟨r, len⟩
    rw [Prod.ext_iff]
    exact ⟨h1, h2⟩

/-- Witness for C6 on the 1×1 free grid whose single cell is both start
and exit. -/
theorem C6_start_at_exit_witness :
    ((0, 0) : Coord) ∈ [((0 : ℤ), (0 : ℤ))] ∧
    aStarA gridF1 fmF1 (0, 0) [((0 : ℤ), (0 : ℤ))] 1 = some (some ([(0, 0)], 0)) ∧
    identifyTurningPoints [((0 : ℤ), (0 : ℤ))] = [] := by
  have h := C6_start_at_exit gridF1 fmF1 (0, 0) [((0 : ℤ), (0 : ℤ))] (by decide)
  exact ⟨by decide, h.1 1 (le_refl 1), h.2.2.2⟩

/-! ### The fallback as a cost floor (C1) -/

/-- C1: if the deterministic fallback returns a route, its cost is a
floor: it is at most the cost of every route the stochastic optimizer
can construct in the same invocation, and whatever the finalize step
returns never costs more than the fallback route. -/
theorem C1_fallback_cost_floor (g : Grid) (fm : FireModel) (s : Coord) (E : List Coord)
    (fuel : ℕ) (p : List Coord) (len : ℝ)
    (hA : aStarA g fm s E fuel = some (some (p, len))) :
    (∀ r alen, AntOutcome g fm s E r alen → len ≤ alen) ∧
    (∀ outs q m, finalizeRun outs (some (p, len)) = some (q, m) → m ≤ len) := by
  obtain ⟨_, hopt⟩ := aStarLoop_main g fm E s fuel (aStarInit s) p len (inv_init g fm E s) hA
  constructor
  · intro r alen hr
    obtain ⟨⟨tail, hreq, hw, hl⟩, hcost⟩ := antOutcome_valid g fm s E r alen hr
    have h2 : plainCost fm r = walkCost fm s tail := by rw [hreq]; rfl
    rw [h2] at hcost
    linarith [hopt tail hw hl]
  · intro outs q m hm
    unfold finalizeRun at hm
    rcases hb : bestOf outs with _ | b
    · rw [hb] at hm
      dsimp only at hm
      injection hm with h2
      have h3 : len = m := congrArg Prod.snd h2
      rw [h3]
    · rw [hb] at hm
      dsimp only at hm
      by_cases hlt : len < b.2
      · rw [if_pos hlt] at hm
        injection hm with h2
        have h3 : len = m := congrArg Prod.snd h2
        rw [h3]
      · rw [if_neg hlt] at hm
        injection hm with h2
        have h3 : b.2 = m := congrArg Prod.snd h2
        rw [← h3]
        exact not_lt.1 hlt

/-! ### Concrete-evaluation stepping lemmas -/

/-- An unset `g_cost` always improves. -/
theorem improves_none {cur : Option ℝ} (h : cur = none) (t : ℝ) : improves cur t := by
  intro v hv
  rw [h] at hv
  cases hv

/-- One expansion iteration of the fallback loop. -/
theorem aStarLoop_succ_step (g : Grid) (fm : FireModel) (E : List Coord) (f : ℕ)
    (st : AStarSt) (e : PEntry) (rest : List PEntry) (gnode : ℝ)
    (hpop : popMin st.queue = some (e, rest)) (hng : e.nd ∉ E)
    (hg : st.gmap e.nd = some gnode) :
    aStarLoop g fm E (f + 1) st =
      aStarLoop g fm E f (relaxAll g fm E e.nd gnode { st with queue := rest }) := by
  conv_lhs => unfold aStarLoop
  rw [hpop]
  dsimp only
  rw [if_neg hng, hg]

/-- The goal-pop iteration of the fallback loop. -/
theorem aStarLoop_goal_step (g : Grid) (fm : FireModel) (E : List Coord) (f : ℕ)
    (st : AStarSt) (e : PEntry) (rest : List PEntry) (chain : List Coord) (len : ℝ)
    (hpop : popMin st.queue = some (e, rest)) (hg : e.nd ∈ E)
    (hrec : reconstruct st.parent f e.nd = some chain)
    (hlen : recomputeLen fm chain.reverse = some len) :
    aStarLoop g fm E (f + 1) st = some (some (chain.reverse, len)) := by
  conv_lhs => unfold aStarLoop
  rw [hpop]
  dsimp only
  rw [if_pos hg, hrec]
  dsimp only
  rw [hlen]

/-- One expansion iteration of the signage search loop. -/
theorem signLoop_succ_step (g : Grid) (fm : FireModel) (E : List Coord) (f : ℕ)
    (st : AStarSt) (e : PEntry) (rest : List PEntry) (gnode : ℝ)
    (hpop : popMin st.queue = some (e, rest)) (hng : e.nd ∉ E)
    (hg : st.gmap e.nd = some gnode) :
    signLoop g fm E (f + 1) st =
      signLoop g fm E f (relaxAll g fm E e.nd gnode { st with queue := rest }) := by
  conv_lhs => unfold signLoop
  rw [hpop]
  dsimp only
  rw [if_neg hng, hg]

/-- The goal-pop iteration of the signage search loop. -/
theorem signLoop_goal_step (g : Grid) (fm : FireModel) (E : List Coord) (f : ℕ)
    (st : AStarSt) (e : PEntry) (rest : List PEntry) (chain : List Coord) (d : ℝ)
    (hpop : popMin st.queue = some (e, rest)) (hg : e.nd ∈ E)
    (hrec : reconstruct st.parent f e.nd = some chain)
    (hd : st.gmap e.nd = some d) :
    signLoop g fm E (f + 1) st = some (some (chain.reverse, d)) := by
  conv_lhs => unfold signLoop
  rw [hpop]
  dsimp only
  rw [if_pos hg, hrec]
  dsimp only
  rw [hd]

/-! ### Concrete evaluation for the C1 witness (1×2 corridor) -/

/-- The fresh 1×2 fire model is cold everywhere. -/
theorem fmF2_intensity (r c : ℤ) : fmF2.intensity r c = 0 := by
  show (if gridF2.inB r c ∧ gridF2.mat r c = 1 then (-1 : ℚ) else 0) = 0
  norm_num [gridF2]

/-- No cell of the cold 1×2 model is unsafe. -/
theorem fmF2_danger (r c : ℤ) (buf : ℕ) : dangerAt fmF2 r c none buf = false := by
  unfold dangerAt
  simp only [fmF2_intensity]
  norm_num [List.any_eq_false]
  intro rr _ cc _
  norm_num [fmF2_intensity, defaultThreshold, show fmF2.stage = "initial" from rfl]

/-- Every step on the cold 1×2 grid is valid. -/
theorem fmF2_valid (a b : Coord) (hb : gridF2.mat b.1 b.2 ≠ 1) :
    isValidStep gridF2 fmF2 (bufferByStage fmF2.stage) a b = true := by
  unfold isValidStep
  rw [if_neg hb]
  simp [fmF2_danger, gridF2]

/-- Fire penalties vanish on the cold 1×2 model. -/
theorem fmF2_pen (r c : ℤ) : firePenalty fmF2 r c = some 0 := by
  unfold firePenalty
  simp only [fmF2_intensity]
  norm_num [blockThreshold, show fmF2.stage = "initial" from rfl]

/-- The horizontal unit step has distance 1. -/
theorem cdist_unit_right (r c : ℤ) : cdist (r, c) (r, c + 1) = 1 := by
  unfold cdist hypotR
  push_cast
  norm_num

/-- Full evaluation of the fallback on the 1×2 corridor: the route
`[(0,0), (0,1)]` with cost `1`. -/
theorem aStarA_F2_eval :
    aStarA gridF2 fmF2 (0, 0) [((0 : ℤ), (1 : ℤ))] 3 =
      some (some ([(0, 0), (0, 1)], 1)) := by
  have hnb : gridF2.neighbors 0 0 = [((0 : ℤ), (1 : ℤ))] := by decide
  have hvalid : isValidStep gridF2 fmF2 (bufferByStage fmF2.stage) (0, 0) (0, 1) = true :=
    fmF2_valid (0, 0) (0, 1) (by norm_num [gridF2])
  show aStarLoop gridF2 fmF2 [((0 : ℤ), (1 : ℤ))] 3 (aStarInit (0, 0)) = _
  rw [aStarLoop_succ_step gridF2 fmF2 [((0 : ℤ), (1 : ℤ))] 2 (aStarInit (0, 0))
    ⟨0, (0, 0)⟩ [] 0 rfl (by decide) rfl]
  rw [show relaxAll gridF2 fmF2 [((0 : ℤ), (1 : ℤ))] (0, 0) 0
      { aStarInit (0, 0) with queue := [] } =
      relaxStep gridF2 fmF2 [((0 : ℤ), (1 : ℤ))] (0, 0) 0
        { aStarInit (0, 0) with queue := [] } (0, 1) from by
    unfold relaxAll
    rw [hnb]
    rfl]
  have hst : relaxStep gridF2 fmF2 [((0 : ℤ), (1 : ℤ))] (0, 0) 0
      { aStarInit (0, 0) with queue := [] } (0, 1) =
      { queue := [⟨0 + cdist ((0 : ℤ), (0 : ℤ)) (0, 1) * (1 + ((0 : ℚ) : ℝ)) +
            minDistToExits [((0 : ℤ), (1 : ℤ))] (0, 1), ((0 : ℤ), (1 : ℤ))⟩]
        gmap := upd (aStarInit ((0 : ℤ), (0 : ℤ))).gmap (0, 1)
          (0 + cdist ((0 : ℤ), (0 : ℤ)) (0, 1) * (1 + ((0 : ℚ) : ℝ)))
        parent := upd (aStarInit ((0 : ℤ), (0 : ℤ))).parent (0, 1) ((0 : ℤ), (0 : ℤ)) } :=
    (relaxStep_push gridF2 fmF2 [((0 : ℤ), (1 : ℤ))] (0, 0) 0
      { aStarInit (0, 0) with queue := [] } (0, 1) 0 hvalid (fmF2_pen 0 1)
      (improves_none rfl _)).trans rfl
  rw [hst]
  have h1 : cdist ((0 : ℤ), (0 : ℤ)) (0, 1) * (1 + ((0 : ℚ) : ℝ)) + 0 = 1 := by
    rw [show ((0 : ℤ), (1 : ℤ)) = ((0 : ℤ), 0 + 1) from by norm_num]
    rw [cdist_unit_right 0 0]
    norm_num
  rw [aStarLoop_goal_step gridF2 fmF2 [((0 : ℤ), (1 : ℤ))] 1
    { queue := [⟨0 + cdist ((0 : ℤ), (0 : ℤ)) (0, 1) * (1 + ((0 : ℚ) : ℝ)) +
          minDistToExits [((0 : ℤ), (1 : ℤ))] (0, 1), ((0 : ℤ), (1 : ℤ))⟩]
      gmap := upd (aStarInit ((0 : ℤ), (0 : ℤ))).gmap (0, 1)
        (0 + cdist ((0 : ℤ), (0 : ℤ)) (0, 1) * (1 + ((0 : ℚ) : ℝ)))
      parent := upd (aStarInit ((0 : ℤ), (0 : ℤ))).parent (0, 1) ((0 : ℤ), (0 : ℤ)) }
    ⟨0 + cdist ((0 : ℤ), (0 : ℤ)) (0, 1) * (1 + ((0 : ℚ) : ℝ)) +
        minDistToExits [((0 : ℤ), (1 : ℤ))] (0, 1), ((0 : ℤ), (1 : ℤ))⟩
    [] [((0 : ℤ), (1 : ℤ)), ((0 : ℤ), (0 : ℤ))]
    (cdist ((0 : ℤ), (0 : ℤ)) (0, 1) * (1 + ((0 : ℚ) : ℝ)) + 0)
    rfl (by decide) rfl
    (by
      show recomputeLen fmF2 [((0 : ℤ), (0 : ℤ)), (0, 1)] = _
      unfold recomputeLen
      rw [fmF2_pen]
      rfl)]
  simp only [h1]
  rfl

/-- C1 witness: on the cold 1×2 corridor the fallback returns the route
`[(0,0),(0,1)]` of cost `1`, and that cost bounds every ant outcome and
every finalize result from below. -/
theorem C1_fallback_cost_floor_witness :
    (∀ r alen, AntOutcome gridF2 fmF2 (0, 0) [((0 : ℤ), (1 : ℤ))] r alen → (1 : ℝ) ≤ alen) ∧
    (∀ outs q m, finalizeRun outs (some ([(0, 0), (0, 1)], 1)) = some (q, m) → m ≤ 1) :=
  C1_fallback_cost_floor gridF2 fmF2 (0, 0) [((0 : ℤ), (1 : ℤ))] 3 [(0, 0), (0, 1)] 1
    aStarA_F2_eval

/-! ### Concrete evaluation of the corridor guidance on a hot 1×3 corridor (C8) -/

/-- Cell `(0,0)` of the hot corridor is unsafe at buffer `0`. -/
theorem fmHot_danger00 : dangerAt fmHot 0 0 none 0 = true := by
  unfold dangerAt
  norm_num [fmHot, gridC3, defaultThreshold, intRange, List.range_succ]

/-- Cell `(0,1)` of the hot corridor is safe at buffer `0`. -/
theorem fmHot_danger01 : dangerAt fmHot 0 1 none 0 = false := by
  unfold dangerAt
  norm_num [fmHot, gridC3, defaultThreshold, intRange, List.range_succ]

/-- Cell `(0,2)` of the hot corridor is safe at buffer `0`. -/
theorem fmHot_danger02 : dangerAt fmHot 0 2 none 0 = false := by
  unfold dangerAt
  norm_num [fmHot, gridC3, defaultThreshold, intRange, List.range_succ]

/-- Fire penalty at `(0,1)` of the hot corridor is `0`. -/
theorem fmHot_pen01 : firePenalty fmHot 0 1 = some 0 := by
  unfold firePenalty
  norm_num [fmHot, blockThreshold]

/-- Fire penalty at `(0,2)` of the hot corridor is `0`. -/
theorem fmHot_pen02 : firePenalty fmHot 0 2 = some 0 := by
  unfold firePenalty
  norm_num [fmHot, blockThreshold]

/-- The step `(0,0) → (0,1)` is valid on the hot corridor. -/
theorem fmHot_valid01 :
    isValidStep gridC3 fmHot (bufferByStage fmHot.stage) (0, 0) (0, 1) = true := by
  unfold isValidStep
  norm_num [gridC3, bufferByStage, fmHot_danger01, show fmHot.stage = "initial" from rfl]

/-- The step `(0,1) → (0,2)` is valid on the hot corridor. -/
theorem fmHot_valid12 :
    isValidStep gridC3 fmHot (bufferByStage fmHot.stage) (0, 1) (0, 2) = true := by
  unfold isValidStep
  norm_num [gridC3, bufferByStage, fmHot_danger02, show fmHot.stage = "initial" from rfl]

/-- The step `(0,1) → (0,0)` into the hot cell is invalid. -/
theorem fmHot_invalid10 :
    isValidStep gridC3 fmHot (bufferByStage fmHot.stage) (0, 1) (0, 0) = false := by
  unfold isValidStep
  norm_num [gridC3, bufferByStage, fmHot_danger00, show fmHot.stage = "initial" from rfl]

/-- Full evaluation of the signage search from the hot sample `(0,0)`:
the route `[(0,0), (0,1), (0,2)]` with distance `2`. -/
theorem computePath_hot_eval :
    computePathFromPosition gridC3 fmHot [((0 : ℤ), (2 : ℤ))] 5 (0, 0) =
      some (some ([(0, 0), (0, 1), (0, 2)], 2)) := by
  unfold computePathFromPosition
  rw [if_neg (by decide)]
  have hT2 : (0 + cdist ((0 : ℤ), (0 : ℤ)) ((0 : ℤ), (1 : ℤ)) * (1 + ((0 : ℚ) : ℝ))) +
      cdist ((0 : ℤ), (1 : ℤ)) ((0 : ℤ), (2 : ℤ)) * (1 + ((0 : ℚ) : ℝ)) = 2 := by
    have e1 : cdist ((0 : ℤ), (0 : ℤ)) ((0 : ℤ), (1 : ℤ)) = 1 := by
      rw [show ((0 : ℤ), (1 : ℤ)) = ((0 : ℤ), 0 + 1) from by norm_num]
      exact cdist_unit_right 0 0
    have e2 : cdist ((0 : ℤ), (1 : ℤ)) ((0 : ℤ), (2 : ℤ)) = 1 := by
      rw [show ((0 : ℤ), (2 : ℤ)) = ((0 : ℤ), 1 + 1) from by norm_num]
      exact cdist_unit_right 0 1
    rw [e1, e2]
    norm_num
  have hrelax1 : relaxAll gridC3 fmHot [((0 : ℤ), (2 : ℤ))] (0, 0) 0
      { aStarInit ((0 : ℤ), (0 : ℤ)) with queue := [] } =
      { queue := [⟨0 + cdist ((0 : ℤ), (0 : ℤ)) ((0 : ℤ), (1 : ℤ)) * (1 + ((0 : ℚ) : ℝ)) +
            minDistToExits [((0 : ℤ), (2 : ℤ))] ((0 : ℤ), (1 : ℤ)), ((0 : ℤ), (1 : ℤ))⟩]
        gmap := upd (aStarInit ((0 : ℤ), (0 : ℤ))).gmap ((0 : ℤ), (1 : ℤ))
          (0 + cdist ((0 : ℤ), (0 : ℤ)) ((0 : ℤ), (1 : ℤ)) * (1 + ((0 : ℚ) : ℝ)))
        parent := upd (aStarInit ((0 : ℤ), (0 : ℤ))).parent ((0 : ℤ), (1 : ℤ))
          ((0 : ℤ), (0 : ℤ)) } :=
    (relaxStep_push gridC3 fmHot [((0 : ℤ), (2 : ℤ))] (0, 0) 0
      { aStarInit ((0 : ℤ), (0 : ℤ)) with queue := [] } (0, 1) 0 fmHot_valid01 fmHot_pen01
      (improves_none rfl _)).trans rfl
  have hrelax2 : relaxAll gridC3 fmHot [((0 : ℤ), (2 : ℤ))] (0, 1)
      (0 + cdist ((0 : ℤ), (0 : ℤ)) ((0 : ℤ), (1 : ℤ)) * (1 + ((0 : ℚ) : ℝ)))
      { queue := []
        gmap := upd (aStarInit ((0 : ℤ), (0 : ℤ))).gmap ((0 : ℤ), (1 : ℤ))
          (0 + cdist ((0 : ℤ), (0 : ℤ)) ((0 : ℤ), (1 : ℤ)) * (1 + ((0 : ℚ) : ℝ)))
        parent := upd (aStarInit ((0 : ℤ), (0 : ℤ))).parent ((0 : ℤ), (1 : ℤ))
          ((0 : ℤ), (0 : ℤ)) } =
      { queue := [⟨(0 + cdist ((0 : ℤ), (0 : ℤ)) ((0 : ℤ), (1 : ℤ)) * (1 + ((0 : ℚ) : ℝ))) +
            cdist ((0 : ℤ), (1 : ℤ)) ((0 : ℤ), (2 : ℤ)) * (1 + ((0 : ℚ) : ℝ)) +
            minDistToExits [((0 : ℤ), (2 : ℤ))] ((0 : ℤ), (2 : ℤ)), ((0 : ℤ), (2 : ℤ))⟩]
        gmap := upd (upd (aStarInit ((0 : ℤ), (0 : ℤ))).gmap ((0 : ℤ), (1 : ℤ))
            (0 + cdist ((0 : ℤ), (0 : ℤ)) ((0 : ℤ), (1 : ℤ)) * (1 + ((0 : ℚ) : ℝ))))
          ((0 : ℤ), (2 : ℤ))
          ((0 + cdist ((0 : ℤ), (0 : ℤ)) ((0 : ℤ), (1 : ℤ)) * (1 + ((0 : ℚ) : ℝ))) +
            cdist ((0 : ℤ), (1 : ℤ)) ((0 : ℤ), (2 : ℤ)) * (1 + ((0 : ℚ) : ℝ)))
        parent := upd (upd (aStarInit ((0 : ℤ), (0 : ℤ))).parent ((0 : ℤ), (1 : ℤ))
            ((0 : ℤ), (0 : ℤ))) ((0 : ℤ), (2 : ℤ)) ((0 : ℤ), (1 : ℤ)) } :=
    ((congrArg
        (fun s => relaxStep gridC3 fmHot [((0 : ℤ), (2 : ℤ))] (0, 1)
          (0 + cdist ((0 : ℤ), (0 : ℤ)) ((0 : ℤ), (1 : ℤ)) * (1 + ((0 : ℚ) : ℝ))) s (0, 2))
        (relaxStep_invalid gridC3 fmHot [((0 : ℤ), (2 : ℤ))] (0, 1)
          (0 + cdist ((0 : ℤ), (0 : ℤ)) ((0 : ℤ), (1 : ℤ)) * (1 + ((0 : ℚ) : ℝ)))
          { queue := []
            gmap := upd (aStarInit ((0 : ℤ), (0 : ℤ))).gmap ((0 : ℤ), (1 : ℤ))
              (0 + cdist ((0 : ℤ), (0 : ℤ)) ((0 : ℤ), (1 : ℤ)) * (1 + ((0 : ℚ) : ℝ)))
            parent := upd (aStarInit ((0 : ℤ), (0 : ℤ))).parent ((0 : ℤ), (1 : ℤ))
              ((0 : ℤ), (0 : ℤ)) } (0, 0) fmHot_invalid10)).trans
      (relaxStep_push gridC3 fmHot [((0 : ℤ), (2 : ℤ))] (0, 1)
        (0 + cdist ((0 : ℤ), (0 : ℤ)) ((0 : ℤ), (1 : ℤ)) * (1 + ((0 : ℚ) : ℝ)))
        { queue := []
          gmap := upd (aStarInit ((0 : ℤ), (0 : ℤ))).gmap ((0 : ℤ), (1 : ℤ))
            (0 + cdist ((0 : ℤ), (0 : ℤ)) ((0 : ℤ), (1 : ℤ)) * (1 + ((0 : ℚ) : ℝ)))
          parent := upd (aStarInit ((0 : ℤ), (0 : ℤ))).parent ((0 : ℤ), (1 : ℤ))
            ((0 : ℤ), (0 : ℤ)) } (0, 2) 0 fmHot_valid12 fmHot_pen02
        (improves_none rfl _))).trans rfl
  calc signLoop gridC3 fmHot [((0 : ℤ), (2 : ℤ))] 5 (aStarInit (0, 0))
      = signLoop gridC3 fmHot [((0 : ℤ), (2 : ℤ))] 4
          (relaxAll gridC3 fmHot [((0 : ℤ), (2 : ℤ))] (0, 0) 0
            { aStarInit ((0 : ℤ), (0 : ℤ)) with queue := [] }) :=
        signLoop_succ_step gridC3 fmHot [((0 : ℤ), (2 : ℤ))] 4 (aStarInit (0, 0))
          ⟨0, (0, 0)⟩ [] 0 rfl (by decide) rfl
    _ = signLoop gridC3 fmHot [((0 : ℤ), (2 : ℤ))] 4
          { queue := [⟨0 + cdist ((0 : ℤ), (0 : ℤ)) ((0 : ℤ), (1 : ℤ)) * (1 + ((0 : ℚ) : ℝ)) +
                minDistToExits [((0 : ℤ), (2 : ℤ))] ((0 : ℤ), (1 : ℤ)), ((0 : ℤ), (1 : ℤ))⟩]
            gmap := upd (aStarInit ((0 : ℤ), (0 : ℤ))).gmap ((0 : ℤ), (1 : ℤ))
              (0 + cdist ((0 : ℤ), (0 : ℤ)) ((0 : ℤ), (1 : ℤ)) * (1 + ((0 : ℚ) : ℝ)))
            parent := upd (aStarInit ((0 : ℤ), (0 : ℤ))).parent ((0 : ℤ), (1 : ℤ))
              ((0 : ℤ), (0 : ℤ)) } :=
        congrArg (signLoop gridC3 fmHot [((0 : ℤ), (2 : ℤ))] 4) hrelax1
    _ = signLoop gridC3 fmHot [((0 : ℤ), (2 : ℤ))] 3
          (relaxAll gridC3 fmHot [((0 : ℤ), (2 : ℤ))] (0, 1)
            (0 + cdist ((0 : ℤ), (0 : ℤ)) ((0 : ℤ), (1 : ℤ)) * (1 + ((0 : ℚ) : ℝ)))
            { queue := []
              gmap := upd (aStarInit ((0 : ℤ), (0 : ℤ))).gmap ((0 : ℤ), (1 : ℤ))
                (0 + cdist ((0 : ℤ), (0 : ℤ)) ((0 : ℤ), (1 : ℤ)) * (1 + ((0 : ℚ) : ℝ)))
              parent := upd (aStarInit ((0 : ℤ), (0 : ℤ))).parent ((0 : ℤ), (1 : ℤ))
                ((0 : ℤ), (0 : ℤ)) }) :=
        signLoop_succ_step gridC3 fmHot [((0 : ℤ), (2 : ℤ))] 3
          { queue := [⟨0 + cdist ((0 : ℤ), (0 : ℤ)) ((0 : ℤ), (1 : ℤ)) * (1 + ((0 : ℚ) : ℝ)) +
                minDistToExits [((0 : ℤ), (2 : ℤ))] ((0 : ℤ), (1 : ℤ)), ((0 : ℤ), (1 : ℤ))⟩]
            gmap := upd (aStarInit ((0 : ℤ), (0 : ℤ))).gmap ((0 : ℤ), (1 : ℤ))
              (0 + cdist ((0 : ℤ), (0 : ℤ)) ((0 : ℤ), (1 : ℤ)) * (1 + ((0 : ℚ) : ℝ)))
            parent := upd (aStarInit ((0 : ℤ), (0 : ℤ))).parent ((0 : ℤ), (1 : ℤ))
              ((0 : ℤ), (0 : ℤ)) }
          ⟨0 + cdist ((0 : ℤ), (0 : ℤ)) ((0 : ℤ), (1 : ℤ)) * (1 + ((0 : ℚ) : ℝ)) +
              minDistToExits [((0 : ℤ), (2 : ℤ))] ((0 : ℤ), (1 : ℤ)), ((0 : ℤ), (1 : ℤ))⟩
          [] (0 + cdist ((0 : ℤ), (0 : ℤ)) ((0 : ℤ), (1 : ℤ)) * (1 + ((0 : ℚ) : ℝ)))
          rfl (by decide) rfl
    _ = signLoop gridC3 fmHot [((0 : ℤ), (2 : ℤ))] 3
          { queue := [⟨(0 + cdist ((0 : ℤ), (0 : ℤ)) ((0 : ℤ), (1 : ℤ)) * (1 + ((0 : ℚ) : ℝ))) +
                cdist ((0 : ℤ), (1 : ℤ)) ((0 : ℤ), (2 : ℤ)) * (1 + ((0 : ℚ) : ℝ)) +
                minDistToExits [((0 : ℤ), (2 : ℤ))] ((0 : ℤ), (2 : ℤ)), ((0 : ℤ), (2 : ℤ))⟩]
            gmap := upd (upd (aStarInit ((0 : ℤ), (0 : ℤ))).gmap ((0 : ℤ), (1 : ℤ))
                (0 + cdist ((0 : ℤ), (0 : ℤ)) ((0 : ℤ), (1 : ℤ)) * (1 + ((0 : ℚ) : ℝ))))
              ((0 : ℤ), (2 : ℤ))
              ((0 + cdist ((0 : ℤ), (0 : ℤ)) ((0 : ℤ), (1 : ℤ)) * (1 + ((0 : ℚ) : ℝ))) +
                cdist ((0 : ℤ), (1 : ℤ)) ((0 : ℤ), (2 : ℤ)) * (1 + ((0 : ℚ) : ℝ)))
            parent := upd (upd (aStarInit ((0 : ℤ), (0 : ℤ))).parent ((0 : ℤ), (1 : ℤ))
                ((0 : ℤ), (0 : ℤ))) ((0 : ℤ), (2 : ℤ)) ((0 : ℤ), (1 : ℤ)) } :=
        congrArg (signLoop gridC3 fmHot [((0 : ℤ), (2 : ℤ))] 3) hrelax2
    _ = some (some (([((0 : ℤ), (2 : ℤ)), ((0 : ℤ), (1 : ℤ)), ((0 : ℤ), (0 : ℤ))]).reverse,
          (0 + cdist ((0 : ℤ), (0 : ℤ)) ((0 : ℤ), (1 : ℤ)) * (1 + ((0 : ℚ) : ℝ))) +
            cdist ((0 : ℤ), (1 : ℤ)) ((0 : ℤ), (2 : ℤ)) * (1 + ((0 : ℚ) : ℝ)))) :=
        signLoop_goal_step gridC3 fmHot [((0 : ℤ), (2 : ℤ))] 2
          { queue := [⟨(0 + cdist ((0 : ℤ), (0 : ℤ)) ((0 : ℤ), (1 : ℤ)) * (1 + ((0 : ℚ) : ℝ))) +
                cdist ((0 : ℤ), (1 : ℤ)) ((0 : ℤ), (2 : ℤ)) * (1 + ((0 : ℚ) : ℝ)) +
                minDistToExits [((0 : ℤ), (2 : ℤ))] ((0 : ℤ), (2 : ℤ)), ((0 : ℤ), (2 : ℤ))⟩]
            gmap := upd (upd (aStarInit ((0 : ℤ), (0 : ℤ))).gmap ((0 : ℤ), (1 : ℤ))
                (0 + cdist ((0 : ℤ), (0 : ℤ)) ((0 : ℤ), (1 : ℤ)) * (1 + ((0 : ℚ) : ℝ))))
              ((0 : ℤ), (2 : ℤ))
              ((0 + cdist ((0 : ℤ), (0 : ℤ)) ((0 : ℤ), (1 : ℤ)) * (1 + ((0 : ℚ) : ℝ))) +
                cdist ((0 : ℤ), (1 : ℤ)) ((0 : ℤ), (2 : ℤ)) * (1 + ((0 : ℚ) : ℝ)))
            parent := upd (upd (aStarInit ((0 : ℤ), (0 : ℤ))).parent ((0 : ℤ), (1 : ℤ))
                ((0 : ℤ), (0 : ℤ))) ((0 : ℤ), (2 : ℤ)) ((0 : ℤ), (1 : ℤ)) }
          ⟨(0 + cdist ((0 : ℤ), (0 : ℤ)) ((0 : ℤ), (1 : ℤ)) * (1 + ((0 : ℚ) : ℝ))) +
              cdist ((0 : ℤ), (1 : ℤ)) ((0 : ℤ), (2 : ℤ)) * (1 + ((0 : ℚ) : ℝ)) +
              minDistToExits [((0 : ℤ), (2 : ℤ))] ((0 : ℤ), (2 : ℤ)), ((0 : ℤ), (2 : ℤ))⟩
          [] [((0 : ℤ), (2 : ℤ)), ((0 : ℤ), (1 : ℤ)), ((0 : ℤ), (0 : ℤ))]
          ((0 + cdist ((0 : ℤ), (0 : ℤ)) ((0 : ℤ), (1 : ℤ)) * (1 + ((0 : ℚ) : ℝ))) +
            cdist ((0 : ℤ), (1 : ℤ)) ((0 : ℤ), (2 : ℤ)) * (1 + ((0 : ℚ) : ℝ)))
          rfl (by decide) rfl rfl
    _ = some (some ([(0, 0), (0, 1), (0, 2)], 2)) := by
        simp only [hT2]
        rfl

/-- Evaluation of the corridor guidance on the hot corridor with the single
sample `(0,0)`: the unsafe sample is not skipped; it gets an entry whose
`is_safe` flag is `false`. -/
theorem corridorGuidance_hot_eval :
    corridorGuidance gridC3 fmHot [((0 : ℤ), (2 : ℤ))] 5 [((0 : ℤ), (0 : ℤ))] 5 =
      some [{ position := ((0 : ℤ), (0 : ℤ)), signal := "→", turnSignal := "RIGHT",
              distanceToExit := pyRound2 2, isSafe := false }] := by
  unfold corridorGuidance
  have hsamp : sampleEvery 5 [((0 : ℤ), (0 : ℤ))] = [((0 : ℤ), (0 : ℤ))] := by
    simp [sampleEvery]
  rw [hsamp]
  conv_lhs => unfold corridorScan
  rw [if_neg (by decide)]
  rw [computePath_hot_eval]
  dsimp only
  rw [show corridorScan gridC3 fmHot [((0 : ℤ), (2 : ℤ))] 5 ([] : List Coord) = some [] from by
    unfold corridorScan
    rfl]
  rw [fmHot_danger00]
  rfl

/-- C8 counterexample: the sampled corridor cell `(0,0)` is unsafe
(`is_unsafe` true at buffer `0`), yet the corridor guidance output contains
an entry for it (flagged `is_safe = false`) instead of skipping it. -/
theorem C8_counterexample :
    dangerAt fmHot 0 0 none 0 = true ∧
    (corridorGuidance gridC3 fmHot [((0 : ℤ), (2 : ℤ))] 5 [((0 : ℤ), (0 : ℤ))] 5).map
        (fun l => l.map (fun e => (e.position, e.isSafe))) =
      some [(((0 : ℤ), (0 : ℤ)), false)] := by
  refine ⟨fmHot_danger00, ?_⟩
  rw [corridorGuidance_hot_eval]
  rfl

/-- Corridor-scan membership invariant: every emitted entry sits at a
sampled non-wall cell and carries `is_safe = not is_unsafe`; only wall
samples (and samples with no multi-cell route) are dropped. -/
theorem corridorScan_mem (g : Grid) (fm : FireModel) (E : List Coord) (fuel : ℕ)
    (cells : List Coord) :
    ∀ l, corridorScan g fm E fuel cells = some l →
      ∀ e ∈ l, e.position ∈ cells ∧ g.mat e.position.1 e.position.2 ≠ 1 ∧
        e.isSafe = ! dangerAt fm e.position.1 e.position.2 none 0 := by
  induction cells with
  | nil =>
    intro l h e he
    unfold corridorScan at h
    injection h with h2
    rw [← h2] at he
    cases he
  | cons pos rest ih =>
    intro l h e he
    unfold corridorScan at h
    by_cases hw : g.mat pos.1 pos.2 = 1
    · rw [if_pos hw] at h
      obtain ⟨h1, h2, h3⟩ := ih l h e he
      exact ⟨List.mem_cons_of_mem _ h1, h2, h3⟩
    · rw [if_neg hw] at h
      rcases hcp : computePathFromPosition g fm E fuel pos with _ | r
      · rw [hcp] at h
        dsimp only at h
        cases h
      · rcases r with _ | pr
        · rw [hcp] at h
          dsimp only at h
          obtain ⟨h1, h2, h3⟩ := ih l h e he
          exact ⟨List.mem_cons_of_mem _ h1, h2, h3⟩
        · rcases pr with ⟨path, d⟩
          rcases path with _ | ⟨a, path2⟩
          · rw [hcp] at h
            dsimp only at h
            obtain ⟨h1, h2, h3⟩ := ih l h e he
            exact ⟨List.mem_cons_of_mem _ h1, h2, h3⟩
          · rcases path2 with _ | ⟨b, path3⟩
            · rw [hcp] at h
              dsimp only at h
              obtain ⟨h1, h2, h3⟩ := ih l h e he
              exact ⟨List.mem_cons_of_mem _ h1, h2, h3⟩
            · rw [hcp] at h
              dsimp only at h
              rcases htail : corridorScan g fm E fuel rest with _ | tail
              · rw [htail] at h
                cases h
              · rw [htail] at h
                simp only [Option.map_some'] at h
                injection h with h2
                rw [← h2] at he
                rcases List.mem_cons.1 he with heq | hmem
                · rw [heq]
                  exact ⟨List.mem_cons_self _ _, hw, rfl⟩
                · obtain ⟨h1, h2', h3⟩ := ih tail htail e hmem
                  exact ⟨List.mem_cons_of_mem _ h1, h2', h3⟩

/-- C8 (amended): every entry of the corridor guidance output corresponds
to a sampled non-wall cell, but unsafe samples are NOT skipped: each entry
carries an `is_safe` flag equal to the negation of `is_unsafe` at its
position, and unsafe samples appear in the output flagged unsafe.  Only
wall samples and samples with no (multi-cell) route are dropped. -/
theorem C8_amended_corridor_flags (g : Grid) (fm : FireModel) (E : List Coord)
    (fuel : ℕ) (cells : List Coord) (spacing : ℕ) (l : List CorridorEntry)
    (h : corridorGuidance g fm E fuel cells spacing = some l) :
    ∀ e ∈ l, e.position ∈ sampleEvery spacing cells ∧
      g.mat e.position.1 e.position.2 ≠ 1 ∧
      e.isSafe = ! dangerAt fm e.position.1 e.position.2 none 0 :=
  corridorScan_mem g fm E fuel (sampleEvery spacing cells) l h

/-- C8 witness: the amended statement evaluated on the hot corridor's
single unsafe sample `(0,0)`. -/
theorem C8_amended_corridor_flags_witness :
    ((0 : ℤ), (0 : ℤ)) ∈ sampleEvery 5 [((0 : ℤ), (0 : ℤ))] ∧
    gridC3.mat 0 0 ≠ 1 ∧
    false = ! dangerAt fmHot 0 0 none 0 :=
  C8_amended_corridor_flags gridC3 fmHot [((0 : ℤ), (2 : ℤ))] 5 [((0 : ℤ), (0 : ℤ))] 5 _
    corridorGuidance_hot_eval
    { position := ((0 : ℤ), (0 : ℤ)), signal := "→", turnSignal := "RIGHT",
      distanceToExit := pyRound2 2, isSafe := false }
    (List.mem_singleton.2 rfl)

end FireEvac
